import Mathlib

/-!
Shallow embedding of the POP3 e-mail retrieval and text-normalization pipeline
(`pop3_to_message.py` and `pop3_to_txt.py`) and proofs about it.

Strings are modelled as `List Char` internally (`String.data`).  Byte payloads
are modelled by the text they decode to: with `errors="replace"` the charset
decoding chain in the sources never fails, so a part's decoded payload is a
plain string.  The Python standard-library helpers that the sources call
(`decode_header`/`make_header`, `parseaddr`, `getaddresses`) are passed as
function parameters, with `Option` capturing a raised exception.
-/

/-- Whitespace characters matched by Python's regex class `\s` (Unicode mode)
and stripped by `str.strip()`. -/
def isPySpace (c : Char) : Bool :=
  c == ' ' || c == '\t' || c == '\n' || c == '\x0b' || c == '\x0c' || c == '\r' ||
  c == '\x1c' || c == '\x1d' || c == '\x1e' || c == '\x1f' ||
  c == '\x85' || c == '\xa0' || c == '\u1680' ||
  c == '\u2000' || c == '\u2001' || c == '\u2002' || c == '\u2003' || c == '\u2004' ||
  c == '\u2005' || c == '\u2006' || c == '\u2007' || c == '\u2008' || c == '\u2009' ||
  c == '\u200a' || c == '\u2028' || c == '\u2029' || c == '\u202f' || c == '\u205f' ||
  c == '\u3000'

/-- Horizontal whitespace matched by the regex class `[ \t\r\f]` used in both
`html_to_text` implementations. -/
def isHSpace (c : Char) : Bool :=
  c == ' ' || c == '\t' || c == '\r' || c == '\x0c'

/-- Lower-casing of a string, character by character (models `str.lower()` on
the ASCII header values the sources apply it to). -/
def pyLower (s : String) : String := ⟨s.data.map Char.toLower⟩

/-- Python `str.strip()`: remove leading and trailing whitespace. -/
def pyStrip (l : List Char) : List Char :=
  ((l.dropWhile isPySpace).reverse.dropWhile isPySpace).reverse

/-- String-level `str.strip()`. -/
def pyStripStr (s : String) : String := ⟨pyStrip s.data⟩

/-- Scan for the first occurrence of the character `t`; on success return the
suffix strictly after it.  This is the non-greedy `.*?t` step of the regexes. -/
def splitAfterChar (t : Char) : List Char → Option (List Char)
  | [] => none
  | c :: r => if c = t then some r else splitAfterChar t r

/-- Case-insensitive character comparison, as under the regex flag `(?i)`. -/
def lowerEq (a b : Char) : Bool := a.toLower == b.toLower

/-- Case-insensitive "starts with". -/
def ciStartsWith : List Char → List Char → Bool
  | [], _ => true
  | _ :: _, [] => false
  | p :: ps, c :: cs => lowerEq p c && ciStartsWith ps cs

/-- Scan for the first (case-insensitive) occurrence of `pat`; on success
return the suffix after the matched occurrence (the non-greedy `.*?pat`). -/
def splitAfterCI (pat : List Char) : List Char → Option (List Char)
  | [] => none
  | c :: r => if ciStartsWith pat (c :: r) then some (List.drop pat.length (c :: r))
              else splitAfterCI pat r

theorem splitAfterChar_sublist {t : Char} {l r : List Char}
    (h : splitAfterChar t l = some r) : List.Sublist r l := by
  induction l with
  | nil => simp [splitAfterChar] at h
  | cons c cs ih =>
    simp only [splitAfterChar] at h
    split at h
    · cases h; exact List.sublist_cons_self _ _
    · exact (ih h).trans (List.sublist_cons_self c cs)

theorem splitAfterCI_sublist {pat l r : List Char}
    (h : splitAfterCI pat l = some r) : List.Sublist r l := by
  induction l with
  | nil => simp [splitAfterCI] at h
  | cons c cs ih =>
    simp only [splitAfterCI] at h
    split at h
    · cases h; exact List.drop_sublist _ _
    · exact (ih h).trans (List.sublist_cons_self c cs)

/-- One attempted match of `(?is)<(script|style).*?>.*?</\1>` for a fixed
element `name`, starting just after a `<`:  the name must follow immediately;
the first `>` after it closes the opening tag (non-greedy `.*?>`); the first
`</name>` after that closes the element (non-greedy `.*?</\1>`, with the
backreference matched case-insensitively).  Returns the suffix after the
match. -/
def tagSpan (name : List Char) (rest : List Char) : Option (List Char) :=
  if ciStartsWith name rest then
    match splitAfterChar '>' (List.drop name.length rest) with
    | none => none
    | some r2 => splitAfterCI ('<' :: '/' :: (name ++ ['>'])) r2
  else none

/-- The `(script|style)` alternation: `script` is tried first, as in the
regex (the two prefixes are mutually exclusive, so no further backtracking
arises). -/
def scriptStyleSpan (rest : List Char) : Option (List Char) :=
  match tagSpan ['s', 'c', 'r', 'i', 'p', 't'] rest with
  | some r => some r
  | none => tagSpan ['s', 't', 'y', 'l', 'e'] rest

theorem tagSpan_sublist {name rest r : List Char}
    (h : tagSpan name rest = some r) : List.Sublist r rest := by
  unfold tagSpan at h
  split at h
  · split at h
    · exact absurd h (by simp)
    · exact (splitAfterCI_sublist h).trans
        ((splitAfterChar_sublist (by assumption)).trans (List.drop_sublist _ _))
  · exact absurd h (by simp)

theorem scriptStyleSpan_sublist {rest r : List Char}
    (h : scriptStyleSpan rest = some r) : List.Sublist r rest := by
  unfold scriptStyleSpan at h
  split at h
  · cases h; exact tagSpan_sublist (by assumption)
  · exact tagSpan_sublist h

/-- `re.sub(r"(?is)<(script|style).*?>.*?</\1>", "", _)`: global left-to-right
scan; at each `<` the span match is attempted, a successful match is removed
and scanning resumes after it, otherwise the `<` is kept. -/
def rss : List Char → List Char
  | [] => []
  | c :: rest =>
    if c = '<' then
      match h : scriptStyleSpan rest with
      | some rest2 => rss rest2
      | none => '<' :: rss rest
    else c :: rss rest
termination_by l => l.length
decreasing_by
  · exact Nat.lt_succ_of_le (scriptStyleSpan_sublist h).length_le
  · exact Nat.lt_succ_self _
  · exact Nat.lt_succ_self _

/-- After the optional `/?` of a tag pattern: skip whitespace and require the
closing `>`; return the suffix after it. -/
def closeAngle (l : List Char) : Option (List Char) :=
  match l.dropWhile isPySpace with
  | '>' :: r => some r
  | _ => none

/-- The optional `/?` of a tag pattern. -/
def slashOpt (l : List Char) : List Char :=
  if l.head? = some '/' then l.drop 1 else l

theorem closeAngle_sublist {l r : List Char} (h : closeAngle l = some r) :
    List.Sublist r l := by
  unfold closeAngle at h
  split at h
  · rename_i heq
    cases h
    have h2 : List.Sublist ('>' :: r) l := by
      rw [← heq]; exact List.dropWhile_sublist _
    exact (List.sublist_cons_self '>' r).trans h2
  · exact absurd h (by simp)

theorem slashOpt_sublist (l : List Char) : List.Sublist (slashOpt l) l := by
  unfold slashOpt
  split
  · exact List.drop_sublist _ _
  · exact List.Sublist.refl _

/-- One attempted match of `(?i)<\s*br\s*/?\s*>` starting just after the `<`;
returns the suffix after the `>`. -/
def brSpan (rest : List Char) : Option (List Char) :=
  if ciStartsWith ['b', 'r'] (rest.dropWhile isPySpace) then
    closeAngle (slashOpt (((rest.dropWhile isPySpace).drop 2).dropWhile isPySpace))
  else none

theorem brSpan_sublist {rest r : List Char} (h : brSpan rest = some r) :
    List.Sublist r rest := by
  unfold brSpan at h
  split at h
  · exact (closeAngle_sublist h).trans ((slashOpt_sublist _).trans
      ((List.dropWhile_sublist _).trans ((List.drop_sublist _ _).trans
        (List.dropWhile_sublist _))))
  · exact absurd h (by simp)

/-- `re.sub(r"(?i)<\s*br\s*/?\s*>", "\n", _)`. -/
def replaceBr : List Char → List Char
  | [] => []
  | c :: rest =>
    if c = '<' then
      match h : brSpan rest with
      | some r => '\n' :: replaceBr r
      | none => '<' :: replaceBr rest
    else c :: replaceBr rest
termination_by l => l.length
decreasing_by
  · exact Nat.lt_succ_of_le (brSpan_sublist h).length_le
  · exact Nat.lt_succ_self _
  · exact Nat.lt_succ_self _

/-- The block-element names of `(?i)</\s*(p|div|h[1-6]|li|tr)\s*>`, in the
alternation's order (the alternatives are mutually exclusive prefixes). -/
def blockNames : List (List Char) :=
  [['p'], ['d', 'i', 'v'], ['h', '1'], ['h', '2'], ['h', '3'], ['h', '4'],
   ['h', '5'], ['h', '6'], ['l', 'i'], ['t', 'r']]

/-- First name of `names` that is a case-insensitive prefix of `l`; returns
the suffix after it. -/
def matchName : List (List Char) → List Char → Option (List Char)
  | [], _ => none
  | n :: ns, l => if ciStartsWith n l then some (l.drop n.length) else matchName ns l

theorem matchName_sublist {ns : List (List Char)} {l r : List Char}
    (h : matchName ns l = some r) : List.Sublist r l := by
  induction ns with
  | nil => simp [matchName] at h
  | cons n ns ih =>
    simp only [matchName] at h
    split at h
    · cases h; exact List.drop_sublist _ _
    · exact ih h

/-- One attempted match of `(?i)</\s*(p|div|h[1-6]|li|tr)\s*>` starting just
after the `<`; returns the suffix after the `>`. -/
def blockSpan (rest : List Char) : Option (List Char) :=
  match rest with
  | '/' :: r1 =>
    match matchName blockNames (r1.dropWhile isPySpace) with
    | some r3 => closeAngle r3
    | none => none
  | _ => none

theorem blockSpan_sublist {rest r : List Char} (h : blockSpan rest = some r) :
    List.Sublist r rest := by
  unfold blockSpan at h
  split at h
  · rename_i r1
    split at h
    · rename_i heq
      refine List.Sublist.trans ?_ (List.sublist_cons_self '/' r1)
      exact (closeAngle_sublist h).trans
        ((matchName_sublist heq).trans (List.dropWhile_sublist _))
    · exact absurd h (by simp)
  · exact absurd h (by simp)

/-- `re.sub(r"(?i)</\s*(p|div|h[1-6]|li|tr)\s*>", "\n", _)`
(structured-export path only). -/
def replaceBlockClose : List Char → List Char
  | [] => []
  | c :: rest =>
    if c = '<' then
      match h : blockSpan rest with
      | some r => '\n' :: replaceBlockClose r
      | none => '<' :: replaceBlockClose rest
    else c :: replaceBlockClose rest
termination_by l => l.length
decreasing_by
  · exact Nat.lt_succ_of_le (blockSpan_sublist h).length_le
  · exact Nat.lt_succ_self _
  · exact Nat.lt_succ_self _

/-- The `/?\s*` of the flat-corpus `p`-tag pattern. -/
def slashSpace (l : List Char) : List Char :=
  if l.head? = some '/' then (l.drop 1).dropWhile isPySpace else l

theorem slashSpace_sublist (l : List Char) : List.Sublist (slashSpace l) l := by
  unfold slashSpace
  split
  · exact (List.dropWhile_sublist _).trans (List.drop_sublist _ _)
  · exact List.Sublist.refl _

/-- One attempted match of `(?i)<\s*/?\s*p\s*>` starting just after the `<`
(flat-corpus path: opening and closing `p` tags alike). -/
def pTagSpan (rest : List Char) : Option (List Char) :=
  if ciStartsWith ['p'] (slashSpace (rest.dropWhile isPySpace)) then
    closeAngle ((slashSpace (rest.dropWhile isPySpace)).drop 1)
  else none

theorem pTagSpan_sublist {rest r : List Char} (h : pTagSpan rest = some r) :
    List.Sublist r rest := by
  unfold pTagSpan at h
  split at h
  · exact (closeAngle_sublist h).trans ((List.drop_sublist _ _).trans
      ((slashSpace_sublist _).trans (List.dropWhile_sublist _)))
  · exact absurd h (by simp)

/-- `re.sub(r"(?i)<\s*/?\s*p\s*>", "\n", _)` (flat-corpus path only). -/
def replacePTag : List Char → List Char
  | [] => []
  | c :: rest =>
    if c = '<' then
      match h : pTagSpan rest with
      | some r => '\n' :: replacePTag r
      | none => '<' :: replacePTag rest
    else c :: replacePTag rest
termination_by l => l.length
decreasing_by
  · exact Nat.lt_succ_of_le (pTagSpan_sublist h).length_le
  · exact Nat.lt_succ_self _
  · exact Nat.lt_succ_self _

/-- `re.sub(r"(?s)<.*?>", "", _)`: strip every remaining tag; a `<` with no
later `>` never matches and is kept. -/
def stripTags : List Char → List Char
  | [] => []
  | c :: rest =>
    if c = '<' then
      match h : splitAfterChar '>' rest with
      | some r => stripTags r
      | none => '<' :: stripTags rest
    else c :: stripTags rest
termination_by l => l.length
decreasing_by
  · exact Nat.lt_succ_of_le (splitAfterChar_sublist h).length_le
  · exact Nat.lt_succ_self _
  · exact Nat.lt_succ_self _

/-- Entity table for the model of `html.unescape`: the semicolon-terminated
named entities this development uses.  `html.unescape` handles many more
forms, but it agrees with this model on the inputs considered here and, like
it, is the identity on ampersand-free text. -/
def entTable : List (List Char × Char) :=
  [(['a', 'm', 'p', ';'], '&'), (['l', 't', ';'], '<'), (['g', 't', ';'], '>'),
   (['q', 'u', 'o', 't', ';'], '"'), (['n', 'b', 's', 'p', ';'], ' ')]

/-- First entity of the table that `l` starts with. -/
def entLookup : List (List Char × Char) → List Char → Option (Char × List Char)
  | [], _ => none
  | (n, ch) :: t, l => if n.isPrefixOf l then some (ch, l.drop n.length) else entLookup t l

theorem entLookup_sublist {t : List (List Char × Char)} {l : List Char}
    {ch : Char} {r : List Char} (h : entLookup t l = some (ch, r)) :
    List.Sublist r l := by
  induction t with
  | nil => simp [entLookup] at h
  | cons n t ih =>
    simp only [entLookup] at h
    split at h
    · cases h; exact List.drop_sublist _ _
    · exact ih h

/-- Model of `html.unescape`: at each `&`, replace a recognized entity and
continue after it, otherwise keep the `&`. -/
def unescapeEnt : List Char → List Char
  | [] => []
  | c :: rest =>
    if c = '&' then
      match h : entLookup entTable rest with
      | some (ch, r) => ch :: unescapeEnt r
      | none => '&' :: unescapeEnt rest
    else c :: unescapeEnt rest
termination_by l => l.length
decreasing_by
  · exact Nat.lt_succ_of_le (entLookup_sublist h).length_le
  · exact Nat.lt_succ_self _
  · exact Nat.lt_succ_self _

/-- `re.sub(r"[ \t\r\f]+", " ", _)`: collapse every run of horizontal
whitespace into a single space. -/
def collapseSpaces : List Char → List Char
  | [] => []
  | c :: rest =>
    if isHSpace c then ' ' :: collapseSpaces (rest.dropWhile isHSpace)
    else c :: collapseSpaces rest
termination_by l => l.length
decreasing_by
  · exact Nat.lt_succ_of_le (List.dropWhile_sublist _).length_le
  · exact Nat.lt_succ_self _

/-- `re.sub(r"\n\s*\n\s*", "\n", _)`: a newline whose following whitespace
run contains another newline swallows, with that run, into a single newline
(the greedy `\s*` takes the whole run); otherwise the newline is kept. -/
def collapseNl : List Char → List Char
  | [] => []
  | c :: rest =>
    if c = '\n' then
      if (rest.takeWhile isPySpace).contains '\n' then
        '\n' :: collapseNl (rest.dropWhile isPySpace)
      else '\n' :: collapseNl rest
    else c :: collapseNl rest
termination_by l => l.length
decreasing_by
  · exact Nat.lt_succ_of_le (List.dropWhile_sublist _).length_le
  · exact Nat.lt_succ_self _
  · exact Nat.lt_succ_self _

/-! Plain (non-dependent) unfolding equations for the scanning functions;
these drive both the inductive proofs and concrete evaluation by `simp`. -/

@[simp] theorem rss_nil : rss [] = [] := by rw [rss]

theorem rss_lt_some {rest r2 : List Char} (h : scriptStyleSpan rest = some r2) :
    rss ('<' :: rest) = rss r2 := by
  conv_lhs => rw [rss]
  rw [if_pos rfl]
  split
  · rename_i heq; rw [heq] at h; cases h; rfl
  · rename_i heq; rw [heq] at h; cases h

theorem rss_lt_none {rest : List Char} (h : scriptStyleSpan rest = none) :
    rss ('<' :: rest) = '<' :: rss rest := by
  conv_lhs => rw [rss]
  rw [if_pos rfl]
  split
  · rename_i heq; rw [heq] at h; cases h
  · rfl

@[simp] theorem rss_other {c : Char} {rest : List Char} (h : ¬ c = '<') :
    rss (c :: rest) = c :: rss rest := by
  conv_lhs => rw [rss]
  rw [if_neg h]

@[simp] theorem replaceBr_nil : replaceBr [] = [] := by rw [replaceBr]

theorem replaceBr_lt_some {rest r : List Char} (h : brSpan rest = some r) :
    replaceBr ('<' :: rest) = '\n' :: replaceBr r := by
  conv_lhs => rw [replaceBr]
  rw [if_pos rfl]
  split
  · rename_i heq; rw [heq] at h; cases h; rfl
  · rename_i heq; rw [heq] at h; cases h

theorem replaceBr_lt_none {rest : List Char} (h : brSpan rest = none) :
    replaceBr ('<' :: rest) = '<' :: replaceBr rest := by
  conv_lhs => rw [replaceBr]
  rw [if_pos rfl]
  split
  · rename_i heq; rw [heq] at h; cases h
  · rfl

@[simp] theorem replaceBr_other {c : Char} {rest : List Char} (h : ¬ c = '<') :
    replaceBr (c :: rest) = c :: replaceBr rest := by
  conv_lhs => rw [replaceBr]
  rw [if_neg h]

@[simp] theorem replaceBlockClose_nil : replaceBlockClose [] = [] := by rw [replaceBlockClose]

theorem replaceBlockClose_lt_some {rest r : List Char} (h : blockSpan rest = some r) :
    replaceBlockClose ('<' :: rest) = '\n' :: replaceBlockClose r := by
  conv_lhs => rw [replaceBlockClose]
  rw [if_pos rfl]
  split
  · rename_i heq; rw [heq] at h; cases h; rfl
  · rename_i heq; rw [heq] at h; cases h

theorem replaceBlockClose_lt_none {rest : List Char} (h : blockSpan rest = none) :
    replaceBlockClose ('<' :: rest) = '<' :: replaceBlockClose rest := by
  conv_lhs => rw [replaceBlockClose]
  rw [if_pos rfl]
  split
  · rename_i heq; rw [heq] at h; cases h
  · rfl

@[simp] theorem replaceBlockClose_other {c : Char} {rest : List Char} (h : ¬ c = '<') :
    replaceBlockClose (c :: rest) = c :: replaceBlockClose rest := by
  conv_lhs => rw [replaceBlockClose]
  rw [if_neg h]

@[simp] theorem replacePTag_nil : replacePTag [] = [] := by rw [replacePTag]

theorem replacePTag_lt_some {rest r : List Char} (h : pTagSpan rest = some r) :
    replacePTag ('<' :: rest) = '\n' :: replacePTag r := by
  conv_lhs => rw [replacePTag]
  rw [if_pos rfl]
  split
  · rename_i heq; rw [heq] at h; cases h; rfl
  · rename_i heq; rw [heq] at h; cases h

theorem replacePTag_lt_none {rest : List Char} (h : pTagSpan rest = none) :
    replacePTag ('<' :: rest) = '<' :: replacePTag rest := by
  conv_lhs => rw [replacePTag]
  rw [if_pos rfl]
  split
  · rename_i heq; rw [heq] at h; cases h
  · rfl

@[simp] theorem replacePTag_other {c : Char} {rest : List Char} (h : ¬ c = '<') :
    replacePTag (c :: rest) = c :: replacePTag rest := by
  conv_lhs => rw [replacePTag]
  rw [if_neg h]

@[simp] theorem stripTags_nil : stripTags [] = [] := by rw [stripTags]

theorem stripTags_lt_some {rest r : List Char} (h : splitAfterChar '>' rest = some r) :
    stripTags ('<' :: rest) = stripTags r := by
  conv_lhs => rw [stripTags]
  rw [if_pos rfl]
  split
  · rename_i heq; rw [heq] at h; cases h; rfl
  · rename_i heq; rw [heq] at h; cases h

theorem stripTags_lt_none {rest : List Char} (h : splitAfterChar '>' rest = none) :
    stripTags ('<' :: rest) = '<' :: stripTags rest := by
  conv_lhs => rw [stripTags]
  rw [if_pos rfl]
  split
  · rename_i heq; rw [heq] at h; cases h
  · rfl

@[simp] theorem stripTags_other {c : Char} {rest : List Char} (h : ¬ c = '<') :
    stripTags (c :: rest) = c :: stripTags rest := by
  conv_lhs => rw [stripTags]
  rw [if_neg h]

@[simp] theorem unescapeEnt_nil : unescapeEnt [] = [] := by rw [unescapeEnt]

theorem unescapeEnt_amp_some {rest r : List Char} {ch : Char}
    (h : entLookup entTable rest = some (ch, r)) :
    unescapeEnt ('&' :: rest) = ch :: unescapeEnt r := by
  conv_lhs => rw [unescapeEnt]
  rw [if_pos rfl]
  split
  · rename_i heq; rw [heq] at h; cases h; rfl
  · rename_i heq; rw [heq] at h; cases h

theorem unescapeEnt_amp_none {rest : List Char} (h : entLookup entTable rest = none) :
    unescapeEnt ('&' :: rest) = '&' :: unescapeEnt rest := by
  conv_lhs => rw [unescapeEnt]
  rw [if_pos rfl]
  split
  · rename_i heq; rw [heq] at h; cases h
  · rfl

@[simp] theorem unescapeEnt_other {c : Char} {rest : List Char} (h : ¬ c = '&') :
    unescapeEnt (c :: rest) = c :: unescapeEnt rest := by
  conv_lhs => rw [unescapeEnt]
  rw [if_neg h]


@[simp] theorem rss_lt (rest : List Char) :
    rss ('<' :: rest) =
      match scriptStyleSpan rest with
      | some r => rss r
      | none => '<' :: rss rest := by
  cases h : scriptStyleSpan rest with
  | some v => rw [rss_lt_some h]
  | none => rw [rss_lt_none h]

@[simp] theorem replaceBr_lt (rest : List Char) :
    replaceBr ('<' :: rest) =
      match brSpan rest with
      | some r => '\n' :: replaceBr r
      | none => '<' :: replaceBr rest := by
  cases h : brSpan rest with
  | some v => rw [replaceBr_lt_some h]
  | none => rw [replaceBr_lt_none h]

@[simp] theorem replaceBlockClose_lt (rest : List Char) :
    replaceBlockClose ('<' :: rest) =
      match blockSpan rest with
      | some r => '\n' :: replaceBlockClose r
      | none => '<' :: replaceBlockClose rest := by
  cases h : blockSpan rest with
  | some v => rw [replaceBlockClose_lt_some h]
  | none => rw [replaceBlockClose_lt_none h]

@[simp] theorem replacePTag_lt (rest : List Char) :
    replacePTag ('<' :: rest) =
      match pTagSpan rest with
      | some r => '\n' :: replacePTag r
      | none => '<' :: replacePTag rest := by
  cases h : pTagSpan rest with
  | some v => rw [replacePTag_lt_some h]
  | none => rw [replacePTag_lt_none h]

@[simp] theorem stripTags_lt (rest : List Char) :
    stripTags ('<' :: rest) =
      match splitAfterChar '>' rest with
      | some r => stripTags r
      | none => '<' :: stripTags rest := by
  cases h : splitAfterChar '>' rest with
  | some v => rw [stripTags_lt_some h]
  | none => rw [stripTags_lt_none h]

@[simp] theorem unescapeEnt_amp (rest : List Char) :
    unescapeEnt ('&' :: rest) =
      match entLookup entTable rest with
      | some (ch, r) => ch :: unescapeEnt r
      | none => '&' :: unescapeEnt rest := by
  cases h : entLookup entTable rest with
  | some v => obtain ⟨ch, r⟩ := v; rw [unescapeEnt_amp_some h]
  | none => rw [unescapeEnt_amp_none h]

@[simp] theorem collapseSpaces_nil : collapseSpaces [] = [] := by rw [collapseSpaces]

@[simp] theorem collapseSpaces_hs {c : Char} {rest : List Char} (h : isHSpace c = true) :
    collapseSpaces (c :: rest) = ' ' :: collapseSpaces (rest.dropWhile isHSpace) := by
  conv_lhs => rw [collapseSpaces]
  rw [if_pos h]

@[simp] theorem collapseSpaces_other {c : Char} {rest : List Char} (h : isHSpace c = false) :
    collapseSpaces (c :: rest) = c :: collapseSpaces rest := by
  conv_lhs => rw [collapseSpaces]
  rw [if_neg (by simp [h])]

@[simp] theorem collapseNl_nil : collapseNl [] = [] := by rw [collapseNl]

@[simp] theorem collapseNl_nl_run {rest : List Char}
    (h : (rest.takeWhile isPySpace).contains '\n' = true) :
    collapseNl ('\n' :: rest) = '\n' :: collapseNl (rest.dropWhile isPySpace) := by
  conv_lhs => rw [collapseNl]
  rw [if_pos rfl, if_pos h]

@[simp] theorem collapseNl_nl_norun {rest : List Char}
    (h : (rest.takeWhile isPySpace).contains '\n' = false) :
    collapseNl ('\n' :: rest) = '\n' :: collapseNl rest := by
  conv_lhs => rw [collapseNl]
  rw [if_pos rfl, if_neg (by rw [h]; simp)]

@[simp] theorem collapseNl_other {c : Char} {rest : List Char} (h : ¬ c = '\n') :
    collapseNl (c :: rest) = c :: collapseNl rest := by
  conv_lhs => rw [collapseNl]
  rw [if_neg h]


namespace PopMsg

/-- `html_to_text` of `pop3_to_message.py`: remove script/style elements,
turn `<br>` and closing block tags into newlines, strip remaining tags,
unescape entities, collapse horizontal whitespace, strip, then collapse
blank lines. -/
def html_to_text (s : String) : String :=
  ⟨collapseNl (pyStrip (collapseSpaces (unescapeEnt (stripTags
      (replaceBlockClose (replaceBr (rss s.data)))))))⟩

end PopMsg

namespace PopTxt

/-- `html_to_text` of `pop3_to_txt.py`: like the structured-path normalizer
but with `<p>`/`</p>` (only) as the block step, and with the final `strip`
applied after the blank-line collapse. -/
def html_to_text (s : String) : String :=
  ⟨pyStrip (collapseNl (collapseSpaces (unescapeEnt (stripTags
      (replacePTag (replaceBr (rss s.data)))))))⟩

end PopTxt

/-!
The message tree (design note of the spec: a tagged union of leaf parts and
multipart containers).  `headers` models the auxiliary headers read by
`msg.get` (Subject, From, To, Cc, Date, Message-ID); the content type and the
Content-Disposition header get their own fields; a leaf's `payload` is the
text its body decodes to (`get_payload(decode=True)` followed by the
never-failing charset decode chain).  A multipart node's decoded payload is
empty (`get_payload(decode=True)` returns `None`, turned into `b""`).
-/

inductive Msg where
  | leaf (headers : List (String × String)) (ctype : String) (disp : String)
      (payload : String)
  | multi (headers : List (String × String)) (ctype : String) (disp : String)
      (parts : List Msg)

/-- Content type of a part (`get_content_type`, before the `.lower()` the
callers apply). -/
def Msg.contentType : Msg → String
  | .leaf _ c _ _ => c
  | .multi _ c _ _ => c

/-- The Content-Disposition header of a part (`part.get("Content-Disposition")
or ""`). -/
def Msg.dispOf : Msg → String
  | .leaf _ _ d _ => d
  | .multi _ _ d _ => d

/-- Decoded payload of a part: the leaf's text; `""` for a multipart container
(`get_payload(decode=True) or b""` decoded). -/
def Msg.payloadText : Msg → String
  | .leaf _ _ _ p => p
  | .multi _ _ _ _ => ""

/-- `msg.is_multipart()`: whether the payload is a list of sub-parts. -/
def Msg.isMultipart : Msg → Bool
  | .leaf _ _ _ _ => false
  | .multi _ _ _ _ => true

/-- Header lookup, `msg.get(name, "")` (header names are case-insensitive). -/
def Msg.getHeader (m : Msg) (name : String) : String :=
  match m with
  | .leaf hs _ _ _ => ((hs.find? (fun kv => pyLower kv.1 == pyLower name)).map Prod.snd).getD ""
  | .multi hs _ _ _ => ((hs.find? (fun kv => pyLower kv.1 == pyLower name)).map Prod.snd).getD ""

mutual

/-- `Message.walk()`: the part itself, then (for multipart) every subpart's
walk, depth-first in order. -/
def walk : Msg → List Msg
  | .leaf hs c d p => [.leaf hs c d p]
  | .multi hs c d parts => .multi hs c d parts :: walkList parts

/-- Concatenated walks of a list of sibling parts. -/
def walkList : List Msg → List Msg
  | [] => []
  | p :: ps => walk p ++ walkList ps

end

/-- Python's substring test `pat in s`. -/
def hasSub (pat : List Char) : List Char → Bool
  | [] => pat.isEmpty
  | c :: r => pat.isPrefixOf (c :: r) || hasSub pat r

/-- `"attachment" in disp` where `disp` is the lower-cased
Content-Disposition header. -/
def isAttachment (m : Msg) : Bool :=
  hasSub "attachment".data (pyLower m.dispOf).data

/-- `part.get_content_maintype()`: the content type's main part, lower-cased
(the text before the first `/`). -/
def contentMaintype (m : Msg) : String :=
  ⟨(pyLower m.contentType).data.takeWhile (fun c => !(c = '/'))⟩

/-- The non-attachment `text/plain` payloads collected by the extractor's
walk, in walk order. -/
def plainParts (m : Msg) : List String :=
  (walk m).filterMap (fun p =>
    if isAttachment p then none
    else if pyLower p.contentType = "text/plain" then some p.payloadText
    else none)

/-- The non-attachment `text/html` payloads collected by the extractor's
walk, in walk order. -/
def htmlParts (m : Msg) : List String :=
  (walk m).filterMap (fun p =>
    if isAttachment p then none
    else if pyLower p.contentType = "text/html" then some p.payloadText
    else none)

/-- The `text/*` fallback payloads: every walked part whose content
maintype is `text`, attachments included. -/
def textParts (m : Msg) : List String :=
  (walk m).filterMap (fun p =>
    if contentMaintype p = "text" then some p.payloadText else none)

namespace PopMsg

/-- `extract_text_body` of `pop3_to_message.py`.  Multipart: prefer the
non-attachment plain parts (blank-line join of the stripped non-empty ones);
else the normalized non-attachment HTML parts; else any `text/*` part.
Single part: the decoded payload, normalized when the content type is
`text/html`. -/
def extract_text_body (msg : Msg) : String :=
  match msg with
  | .multi hs c d parts =>
    if !(plainParts (.multi hs c d parts)).isEmpty then
      String.intercalate "\n\n"
        (((plainParts (.multi hs c d parts)).map pyStripStr).filter (fun t => t != ""))
    else if !(htmlParts (.multi hs c d parts)).isEmpty then
      String.intercalate "\n\n"
        (((htmlParts (.multi hs c d parts)).filter (fun h2 => pyStripStr h2 != "")).map html_to_text)
    else
      String.intercalate "\n\n"
        (((textParts (.multi hs c d parts)).map pyStripStr).filter (fun t => t != ""))
  | .leaf hs c d p =>
    if pyLower c = "text/html" then html_to_text p else p

end PopMsg

namespace PopTxt

/-- `extract_body` of `pop3_to_txt.py`: identical to the structured-path
extractor except that the `text/*` fallback joins with a single space. -/
def extract_body (msg : Msg) : String :=
  match msg with
  | .multi hs c d parts =>
    if !(plainParts (.multi hs c d parts)).isEmpty then
      String.intercalate "\n\n"
        (((plainParts (.multi hs c d parts)).map pyStripStr).filter (fun t => t != ""))
    else if !(htmlParts (.multi hs c d parts)).isEmpty then
      String.intercalate "\n\n"
        (((htmlParts (.multi hs c d parts)).filter (fun h2 => pyStripStr h2 != "")).map html_to_text)
    else
      String.intercalate " "
        (((textParts (.multi hs c d parts)).map pyStripStr).filter (fun t => t != ""))
  | .leaf hs c d p =>
    if pyLower c = "text/html" then html_to_text p else p

end PopTxt

namespace PopMsg

/-- `decode_header_str`: the library decoding
`str(make_header(decode_header(value)))` is the parameter `core`, `none`
standing for a raised exception, which the `except` branch turns into the
original value; empty input short-circuits to `""`. -/
def decode_header_str (core : String → Option String) (value : String) : String :=
  if value = "" then ""
  else
    match core value with
    | some s => s
    | none => value

/-- `parse_from_header`: split the From header with the address parser
(`parseaddr`), decode the display name. -/
def parse_from_header (core : String → Option String)
    (parseaddr : String → String × String) (val : String) : String × String :=
  if val = "" then ("", "")
  else (decode_header_str core (parseaddr val).1, (parseaddr val).2)

/-- `parse_addr_list`: split an address-list header (`getaddresses`), decode
each display name. -/
def parse_addr_list (core : String → Option String)
    (getaddresses : String → List (String × String)) (val : String) :
    List (String × String) :=
  (getaddresses val).map (fun p => (decode_header_str core p.1, p.2))

/-- The Normalized Record assembled by `message_to_struct` (the `to` and
`cc` recipient lists are the `to_addrs` and `cc_addrs` fields). -/
structure EmailStruct where
  subject : String
  body : String
  from_name : String
  from_email : String
  date : String
  message_id : String
  to_addrs : List (String × String)
  cc_addrs : List (String × String)

/-- `message_to_struct`: decode the subject and date headers, parse the
From/To/Cc addresses, and extract the body. -/
def message_to_struct (core : String → Option String)
    (parseaddr : String → String × String)
    (getaddresses : String → List (String × String)) (msg : Msg) : EmailStruct :=
  { subject := decode_header_str core (msg.getHeader "Subject")
  , body := extract_text_body msg
  , from_name := (parse_from_header core parseaddr (msg.getHeader "From")).1
  , from_email := (parse_from_header core parseaddr (msg.getHeader "From")).2
  , date := decode_header_str core (msg.getHeader "Date")
  , message_id := msg.getHeader "Message-ID"
  , to_addrs := parse_addr_list core getaddresses (msg.getHeader "To")
  , cc_addrs := parse_addr_list core getaddresses (msg.getHeader "Cc") }

end PopMsg

/-- Descending insertion of one index (used to model
`indices.sort(reverse=True)`). -/
def insertDesc (x : Int) : List Int → List Int
  | [] => [x]
  | y :: ys => if y < x then x :: y :: ys else y :: insertDesc x ys

/-- `indices.sort(reverse=True)`: sort the listing's indices descending. -/
def sortDesc (l : List Int) : List Int := l.foldr insertDesc []

/-- Python list slicing `l[:n]` for an `int` bound: a nonnegative `n` keeps
the first `n` items; a negative `n` drops the last `-n` items (empty result
when `-n` exceeds the length). -/
def pySliceTo (n : Int) (l : List Int) : List Int :=
  if 0 ≤ n then l.take n.toNat else l.take (l.length - (-n).toNat)

namespace PopMsg

/-- The pure core of `fetch_messages` in `pop3_to_message.py`: the listing's
indices (`int(line.split()[0])` per line) are sorted descending
(newest first) and sliced by `indices[:max_messages]` when a maximum is
given; each selected index is then retrieved and parsed, modelled by
`retr`.  Connection, authentication and session shutdown are outside the
pure model. -/
def fetch_messages (listing : List Int) (max_messages : Option Int)
    (retr : Int → α) : List α :=
  (match max_messages with
   | none => sortDesc listing
   | some n => pySliceTo n (sortDesc listing)).map retr

end PopMsg

namespace PopTxt

/-- The pure core of `fetch_messages` in `pop3_to_txt.py`: identical except
that the slice bound is clamped, `indices[: max(0, int(max_messages))]`. -/
def fetch_messages (listing : List Int) (max_messages : Option Int)
    (retr : Int → α) : List α :=
  (match max_messages with
   | none => sortDesc listing
   | some n => (sortDesc listing).take (max 0 n).toNat).map retr

end PopTxt

theorem insertDesc_perm (x : Int) (l : List Int) :
    (insertDesc x l).Perm (x :: l) := by
  induction l with
  | nil => exact List.Perm.refl _
  | cons y ys ih =>
    unfold insertDesc
    split
    · exact List.Perm.refl _
    · exact (List.Perm.cons y ih).trans (List.Perm.swap x y ys)

theorem sortDesc_perm (l : List Int) : (sortDesc l).Perm l := by
  induction l with
  | nil => exact List.Perm.refl _
  | cons x xs ih =>
    exact (insertDesc_perm x (sortDesc xs)).trans (List.Perm.cons x ih)

theorem insertDesc_sorted {l : List Int} (x : Int)
    (h : l.Pairwise (· ≥ ·)) : (insertDesc x l).Pairwise (· ≥ ·) := by
  induction l with
  | nil => simp [insertDesc]
  | cons y ys ih =>
    rw [List.pairwise_cons] at h
    unfold insertDesc
    split
    · rename_i hyx
      rw [List.pairwise_cons]
      constructor
      · intro b hb
        rcases List.mem_cons.mp hb with hb | hb
        · exact le_of_lt (hb ▸ hyx)
        · exact le_trans (h.1 b hb) (le_of_lt hyx)
      · exact List.pairwise_cons.mpr h
    · rename_i hxy
      rw [List.pairwise_cons]
      constructor
      · intro b hb
        rcases List.mem_cons.mp ((insertDesc_perm x ys).mem_iff.mp hb) with hb | hb
        · exact hb ▸ (le_of_not_lt hxy)
        · exact h.1 b hb
      · exact ih h.2

theorem sortDesc_sorted (l : List Int) : (sortDesc l).Pairwise (· ≥ ·) := by
  induction l with
  | nil => simp [sortDesc]
  | cons x xs ih => exact insertDesc_sorted x ih

theorem sortDesc_length (l : List Int) : (sortDesc l).length = l.length :=
  (sortDesc_perm l).length_eq

/-- C2: with a requested maximum `N ≥ 0` both fetchers agree; they return the
first `N.toNat` entries of the descending sort of the listing, hence at most
`N` messages, sorted newest-first; the selection dominates what is left out;
with a mailbox of at least `N` messages, exactly `N` are returned; `N = 0`
gives an empty result. -/
theorem fetch_messages_take_highest {M : Type} (indices : List Int) (n : Int)
    (hn : 0 ≤ n) (retr : Int → M) :
    PopMsg.fetch_messages indices (some n) retr = PopTxt.fetch_messages indices (some n) retr
    ∧ PopMsg.fetch_messages indices (some n) retr =
        ((sortDesc indices).take n.toNat).map retr
    ∧ (PopMsg.fetch_messages indices (some n) retr).length ≤ n.toNat
    ∧ ((sortDesc indices).take n.toNat).Pairwise (· ≥ ·)
    ∧ (∃ rest, ((sortDesc indices).take n.toNat ++ rest).Perm indices
        ∧ ∀ x ∈ (sortDesc indices).take n.toNat, ∀ y ∈ rest, y ≤ x)
    ∧ (n.toNat ≤ indices.length →
        (PopMsg.fetch_messages indices (some n) retr).length = n.toNat)
    ∧ (n = 0 → PopMsg.fetch_messages indices (some n) retr = []) := by
  have hmsg : PopMsg.fetch_messages indices (some n) retr =
      ((sortDesc indices).take n.toNat).map retr := by
    simp only [PopMsg.fetch_messages, pySliceTo, if_pos hn]
  have htxt : PopTxt.fetch_messages indices (some n) retr =
      ((sortDesc indices).take n.toNat).map retr := by
    simp only [PopTxt.fetch_messages]
    rw [max_eq_right hn]
  have hlen : (PopMsg.fetch_messages indices (some n) retr).length =
      min n.toNat indices.length := by
    rw [hmsg, List.length_map, List.length_take, sortDesc_length]
  refine ⟨hmsg.trans htxt.symm, hmsg, ?_, ?_, ?_, ?_, ?_⟩
  · rw [hlen]; exact min_le_left _ _
  · exact (sortDesc_sorted indices).sublist (List.take_sublist _ _)
  · refine ⟨(sortDesc indices).drop n.toNat, ?_, ?_⟩
    · rw [List.take_append_drop]; exact sortDesc_perm indices
    · have hp := sortDesc_sorted indices
      rw [← List.take_append_drop n.toNat (sortDesc indices),
        List.pairwise_append] at hp
      intro x hx y hy
      exact hp.2.2 x hx y hy
  · intro hle; rw [hlen]; omega
  · intro h0; subst h0
    rw [hmsg]; simp

/-- Closed instance of the C2 theorem at a concrete mailbox. -/
theorem fetch_messages_take_highest_witness :
    0 ≤ (2 : Int)
    ∧ PopMsg.fetch_messages [2, 5, 3] (some 2) id = PopTxt.fetch_messages [2, 5, 3] (some 2) id
    ∧ PopMsg.fetch_messages [2, 5, 3] (some 2) id = [5, 3] := by
  refine ⟨by decide, (fetch_messages_take_highest [2, 5, 3] 2 (by decide) id).1, ?_⟩
  rw [(fetch_messages_take_highest [2, 5, 3] 2 (by decide) id).2.1]
  decide

/-- C10: the two fetchers disagree on a negative maximum `k < 0`: the
flat-corpus path clamps to zero and returns nothing, while the structured
path slices with the negative bound, returning all but the `(-k)` lowest
indices (the dropped remainder is lowest and of size `min (-k) (length)`). -/
theorem fetch_messages_negative_divergence {M : Type} (indices : List Int) (k : Int)
    (hk : k < 0) (hne : indices ≠ []) (retr : Int → M) :
    PopTxt.fetch_messages indices (some k) retr = []
    ∧ PopMsg.fetch_messages indices (some k) retr =
        ((sortDesc indices).take (indices.length - (-k).toNat)).map retr
    ∧ (∃ rest, ((sortDesc indices).take (indices.length - (-k).toNat) ++ rest).Perm indices
        ∧ rest.length = min (-k).toNat indices.length
        ∧ ∀ x ∈ (sortDesc indices).take (indices.length - (-k).toNat),
            ∀ y ∈ rest, y ≤ x) := by
  refine ⟨?_, ?_, ?_⟩
  · simp only [PopTxt.fetch_messages]
    rw [max_eq_left (le_of_lt hk)]
    simp
  · simp only [PopMsg.fetch_messages, pySliceTo, if_neg (not_le.mpr hk), sortDesc_length]
  · refine ⟨(sortDesc indices).drop (indices.length - (-k).toNat), ?_, ?_, ?_⟩
    · rw [List.take_append_drop]; exact sortDesc_perm indices
    · rw [List.length_drop, sortDesc_length]
      omega
    · have hp := sortDesc_sorted indices
      rw [← List.take_append_drop (indices.length - (-k).toNat) (sortDesc indices),
        List.pairwise_append] at hp
      intro x hx y hy
      exact hp.2.2 x hx y hy

/-- Closed instance of the C10 theorem at a concrete mailbox. -/
theorem fetch_messages_negative_divergence_witness :
    (-1 : Int) < 0 ∧ ([4, 1, 3] : List Int) ≠ []
    ∧ PopTxt.fetch_messages [4, 1, 3] (some (-1)) id = []
    ∧ PopMsg.fetch_messages [4, 1, 3] (some (-1)) id = [4, 3] := by
  refine ⟨by decide, by decide,
    (fetch_messages_negative_divergence [4, 1, 3] (-1) (by decide) (by decide) id).1, ?_⟩
  rw [(fetch_messages_negative_divergence [4, 1, 3] (-1) (by decide) (by decide) id).2.1]
  decide

/-- C9: the header decoder is total and never escalates a failure: empty
input yields the empty string; a successful library decode is returned; a
failed one (`none`, a raised exception) falls back to the original value. -/
theorem decode_header_str_total (core : String → Option String) (v : String) :
    (v = "" ∧ PopMsg.decode_header_str core v = "")
    ∨ ((¬ v = "") ∧ ∃ s, core v = some s ∧ PopMsg.decode_header_str core v = s)
    ∨ ((¬ v = "") ∧ core v = none ∧ PopMsg.decode_header_str core v = v) := by
  unfold PopMsg.decode_header_str
  by_cases hv : v = ""
  · exact Or.inl ⟨hv, by rw [if_pos hv]⟩
  · cases hc : core v with
    | some s =>
      exact Or.inr (Or.inl ⟨hv, s, rfl, by rw [if_neg hv]⟩)
    | none =>
      exact Or.inr (Or.inr ⟨hv, rfl, by rw [if_neg hv]⟩)

/-- The join the spec's C1 sentence describes: blank-line join of the
trimmed decoded payloads of all the non-attachment plain-text parts (no
part is dropped). -/
def specPlainJoin (m : Msg) : String :=
  String.intercalate "\n\n" ((plainParts m).map pyStripStr)

/-- The join the spec's fallback sentence describes for the structured
path: blank-line join of the trimmed `text/*` payloads. -/
def specTextJoinNl (m : Msg) : String :=
  String.intercalate "\n\n" ((textParts m).map pyStripStr)

/-- The join the spec's fallback sentence describes for the flat-corpus
path: single-space join of the trimmed `text/*` payloads. -/
def specTextJoinSp (m : Msg) : String :=
  String.intercalate " " ((textParts m).map pyStripStr)

/-- A multipart message with plain parts `"a"` and `" "` (and an HTML
part): both extractors drop the whitespace-only part entirely, so the
output is `"a"`, not the claim's join of all trimmed payloads `"a\n\n"`. -/
def mPlainBlank : Msg :=
  Msg.multi [] "multipart/alternative" ""
    [Msg.leaf [] "text/plain" "" "a", Msg.leaf [] "text/plain" "" " ",
     Msg.leaf [] "text/html" "" "<b>x</b>"]

/-- C1 counterexample: on `mPlainBlank` the extractors return `"a"`, while
the claim's formula (join of the trimmed payloads of all plain parts)
gives `"a\n\n"`. -/
theorem extract_plain_join_counterexample :
    PopMsg.extract_text_body mPlainBlank = "a"
    ∧ PopTxt.extract_body mPlainBlank = "a"
    ∧ specPlainJoin mPlainBlank = "a\n\n"
    ∧ ¬ PopMsg.extract_text_body mPlainBlank = specPlainJoin mPlainBlank
    ∧ ¬ PopTxt.extract_body mPlainBlank = specPlainJoin mPlainBlank := by
  decide

/-- C1 as amended: whenever a multipart message has at least one
non-attachment plain-text part, both extractors return the blank-line join
of the trimmed payloads of those parts that are non-blank after trimming,
whatever HTML parts are present. -/
theorem extract_plain_priority (hs : List (String × String)) (ct d : String)
    (parts : List Msg) (hp : ¬ plainParts (Msg.multi hs ct d parts) = []) :
    PopMsg.extract_text_body (Msg.multi hs ct d parts) =
      String.intercalate "\n\n"
        (((plainParts (Msg.multi hs ct d parts)).map pyStripStr).filter (fun t => t != ""))
    ∧ PopTxt.extract_body (Msg.multi hs ct d parts) =
      String.intercalate "\n\n"
        (((plainParts (Msg.multi hs ct d parts)).map pyStripStr).filter (fun t => t != "")) := by
  have hne : (plainParts (Msg.multi hs ct d parts)).isEmpty = false := by
    cases hq : plainParts (Msg.multi hs ct d parts) with
    | nil => exact absurd hq hp
    | cons t ts => rfl
  constructor
  · simp only [PopMsg.extract_text_body, hne, Bool.not_false, if_true]
  · simp only [PopTxt.extract_body, hne, Bool.not_false, if_true]

/-- Closed instance of the C1 theorem: a plain part next to an HTML part;
the HTML part is ignored and the trimmed plain text is returned. -/
theorem extract_plain_priority_witness :
    ¬ plainParts (Msg.multi [] "multipart/alternative" ""
        [Msg.leaf [] "text/plain" "" " hi \r\n", Msg.leaf [] "text/html" "" "<b>hi</b>"]) = []
    ∧ PopMsg.extract_text_body (Msg.multi [] "multipart/alternative" ""
        [Msg.leaf [] "text/plain" "" " hi \r\n", Msg.leaf [] "text/html" "" "<b>hi</b>"]) = "hi" := by
  refine ⟨by decide, ?_⟩
  rw [(extract_plain_priority [] "multipart/alternative" ""
    [Msg.leaf [] "text/plain" "" " hi \r\n", Msg.leaf [] "text/html" "" "<b>hi</b>"]
    (by decide)).1]
  decide

/-- A multipart message whose only textual parts are `text/enriched`, one
of them whitespace-only: the fallback branch applies, and the extractors
drop the blank part rather than joining all trimmed payloads. -/
def mFallbackBlank : Msg :=
  Msg.multi [] "multipart/mixed" ""
    [Msg.leaf [] "text/enriched" "" "a", Msg.leaf [] "text/enriched" "" " "]

/-- C7 counterexample: on `mFallbackBlank` both extractors return `"a"`,
while the claim's joins of all trimmed `text/*` payloads give `"a\n\n"`
and `"a "`. -/
theorem extract_fallback_join_counterexample :
    PopMsg.extract_text_body mFallbackBlank = "a"
    ∧ PopTxt.extract_body mFallbackBlank = "a"
    ∧ specTextJoinNl mFallbackBlank = "a\n\n"
    ∧ specTextJoinSp mFallbackBlank = "a "
    ∧ ¬ PopMsg.extract_text_body mFallbackBlank = specTextJoinNl mFallbackBlank
    ∧ ¬ PopTxt.extract_body mFallbackBlank = specTextJoinSp mFallbackBlank := by
  decide

/-- C7 as amended: on a multipart message with no non-attachment plain or
HTML parts, the structured-path extractor joins the non-blank trimmed
`text/*` payloads with a blank line, the flat-corpus-path extractor with a
single space. -/
theorem extract_fallback_separators (hs : List (String × String)) (ct d : String)
    (parts : List Msg)
    (hp : plainParts (Msg.multi hs ct d parts) = [])
    (hh : htmlParts (Msg.multi hs ct d parts) = [])
    (ht : ¬ textParts (Msg.multi hs ct d parts) = []) :
    PopMsg.extract_text_body (Msg.multi hs ct d parts) =
      String.intercalate "\n\n"
        (((textParts (Msg.multi hs ct d parts)).map pyStripStr).filter (fun t => t != ""))
    ∧ PopTxt.extract_body (Msg.multi hs ct d parts) =
      String.intercalate " "
        (((textParts (Msg.multi hs ct d parts)).map pyStripStr).filter (fun t => t != "")) := by
  constructor
  · simp only [PopMsg.extract_text_body, hp, hh, List.isEmpty_nil, Bool.not_true,
      if_neg (by simp : ¬ (false = true))]
  · simp only [PopTxt.extract_body, hp, hh, List.isEmpty_nil, Bool.not_true,
      if_neg (by simp : ¬ (false = true))]

/-- Closed instance of the C7 theorem at a concrete two-part message. -/
theorem extract_fallback_separators_witness :
    plainParts (Msg.multi [] "multipart/mixed" ""
      [Msg.leaf [] "text/enriched" "" "a", Msg.leaf [] "text/enriched" "" "b"]) = []
    ∧ PopMsg.extract_text_body (Msg.multi [] "multipart/mixed" ""
        [Msg.leaf [] "text/enriched" "" "a", Msg.leaf [] "text/enriched" "" "b"]) = "a\n\nb"
    ∧ PopTxt.extract_body (Msg.multi [] "multipart/mixed" ""
        [Msg.leaf [] "text/enriched" "" "a", Msg.leaf [] "text/enriched" "" "b"]) = "a b" := by
  refine ⟨by decide, ?_, ?_⟩
  · rw [(extract_fallback_separators [] "multipart/mixed" ""
      [Msg.leaf [] "text/enriched" "" "a", Msg.leaf [] "text/enriched" "" "b"]
      (by decide) (by decide) (by decide)).1]
    decide
  · rw [(extract_fallback_separators [] "multipart/mixed" ""
      [Msg.leaf [] "text/enriched" "" "a", Msg.leaf [] "text/enriched" "" "b"]
      (by decide) (by decide) (by decide)).2]
    decide

/-- The multipart message of the spec's end-to-end scenario: a plain-text
part `"Hi\r\nBob"` next to a plain-text attachment. -/
def mCrlf : Msg :=
  Msg.multi [] "multipart/mixed" ""
    [Msg.leaf [] "text/plain" "" "Hi\r\nBob",
     Msg.leaf [] "text/plain" "attachment" "ATTACHED SECRET"]

/-- C8 counterexample: neither extractor returns `"Hi\nBob"` — nothing in
either pipeline rewrites the CRLF of a plain-text part. -/
theorem extract_crlf_counterexample :
    ¬ PopMsg.extract_text_body mCrlf = "Hi\nBob"
    ∧ ¬ PopTxt.extract_body mCrlf = "Hi\nBob" := by
  decide

/-- C8 as amended: the scenario yields `"Hi\r\nBob"`, the attachment text
excluded but the CRLF kept verbatim. -/
theorem extract_crlf_scenario :
    PopMsg.extract_text_body mCrlf = "Hi\r\nBob"
    ∧ PopTxt.extract_body mCrlf = "Hi\r\nBob" := by
  decide

/-- C3 counterexample: a single-part plain-text message whose payload is
markup; the record's body is the payload verbatim, markup included. -/
theorem message_body_markup_counterexample :
    (PopMsg.message_to_struct (fun _ => none) (fun _ => ("", "")) (fun _ => [])
      (Msg.leaf [] "text/plain" "" "<b>hi</b>")).body = "<b>hi</b>"
    ∧ hasSub "<b>".data ((PopMsg.message_to_struct (fun _ => none) (fun _ => ("", ""))
        (fun _ => []) (Msg.leaf [] "text/plain" "" "<b>hi</b>")).body).data = true := by
  decide

/-- C3 as amended: the record's body strips markup only when it is derived
from HTML content; for a single-part message of any other content type the
body is the decoded payload verbatim, markup-like text included. -/
theorem message_body_plain_verbatim (core : String → Option String)
    (parseaddr : String → String × String)
    (getaddresses : String → List (String × String))
    (hs : List (String × String)) (ct d p : String)
    (h : ¬ pyLower ct = "text/html") :
    (PopMsg.message_to_struct core parseaddr getaddresses (Msg.leaf hs ct d p)).body = p := by
  simp only [PopMsg.message_to_struct, PopMsg.extract_text_body, if_neg h]

/-- Closed instance of the C3 theorem at a concrete plain-text message. -/
theorem message_body_plain_verbatim_witness :
    ¬ pyLower "text/plain" = "text/html"
    ∧ (PopMsg.message_to_struct (fun _ => none) (fun _ => ("", "")) (fun _ => [])
        (Msg.leaf [] "text/plain" "" "x < y")).body = "x < y" :=
  ⟨by decide, message_body_plain_verbatim (fun _ => none) (fun _ => ("", ""))
    (fun _ => []) [] "text/plain" "" "x < y" (by decide)⟩

/-- C6 counterexample: the flat-corpus normalizer turns the *opening*
`<p>` into a newline (the claim says opening tags are only stripped), and
it does not turn the closing `</div>` into a newline (the claim says
closing `div` tags become newlines); the structured normalizer behaves as
the claim says on the same inputs. -/
theorem block_tag_uniform_counterexample :
    PopMsg.html_to_text "a<p>b" = "ab"
    ∧ PopTxt.html_to_text "a<p>b" = "a\nb"
    ∧ PopMsg.html_to_text "a</div>b" = "a\nb"
    ∧ PopTxt.html_to_text "a</div>b" = "ab" := by
  refine ⟨?_, ?_, ?_, ?_⟩ <;>
    simp +decide [PopMsg.html_to_text, PopTxt.html_to_text, scriptStyleSpan, tagSpan,
      ciStartsWith, lowerEq, splitAfterChar, splitAfterCI, brSpan, closeAngle,
      slashOpt, slashSpace, blockSpan, matchName, blockNames, pTagSpan, entLookup,
      entTable, List.isPrefixOf, pyStrip, isPySpace, isHSpace]

/-!
Machinery for the normalizer claims: what the tag-oriented passes leave
alone, what characters each pass can introduce, and the normal forms the
whitespace passes establish.
-/

/-- No `<` anywhere before a `>`: the output of tag stripping satisfies
this, and on such text every tag-oriented pass is the identity. -/
def noTagSpan (l : List Char) : Prop := ¬ List.Sublist ['<', '>'] l

theorem noTagSpan_tail {c : Char} {l : List Char} (h : noTagSpan (c :: l)) :
    noTagSpan l := fun hs => h (hs.cons c)

theorem noTagSpan_no_gt {rest : List Char} (h : noTagSpan ('<' :: rest)) :
    ¬ '>' ∈ rest :=
  fun hm => h ((List.singleton_sublist.mpr hm).cons₂ '<')

theorem noTagSpan_of_sublist {x y : List Char} (hs : List.Sublist x y)
    (h : noTagSpan y) : noTagSpan x := fun hp => h (hp.trans hs)

theorem splitAfterChar_none {t : Char} {l : List Char} (h : ¬ t ∈ l) :
    splitAfterChar t l = none := by
  induction l with
  | nil => rfl
  | cons c cs ih =>
    unfold splitAfterChar
    rw [if_neg (fun hc => h (by rw [hc]; exact List.mem_cons_self t cs))]
    exact ih (fun hm => h (List.mem_cons_of_mem c hm))

theorem closeAngle_none {l : List Char} (h : ¬ '>' ∈ l) : closeAngle l = none := by
  unfold closeAngle
  split
  · rename_i r heq
    exact absurd ((List.dropWhile_sublist _).subset (heq ▸ List.mem_cons_self '>' r)) h
  · rfl

theorem tagSpan_none {name rest : List Char} (h : ¬ '>' ∈ rest) :
    tagSpan name rest = none := by
  unfold tagSpan
  split
  · rw [splitAfterChar_none (fun hm => h (List.drop_subset _ _ hm))]
  · rfl

theorem scriptStyleSpan_none {rest : List Char} (h : ¬ '>' ∈ rest) :
    scriptStyleSpan rest = none := by
  unfold scriptStyleSpan
  rw [tagSpan_none h, tagSpan_none h]

theorem brSpan_none {rest : List Char} (h : ¬ '>' ∈ rest) : brSpan rest = none := by
  unfold brSpan
  split
  · refine closeAngle_none (fun hm => h ?_)
    exact (((slashOpt_sublist _).trans ((List.dropWhile_sublist _).trans
      ((List.drop_sublist _ _).trans (List.dropWhile_sublist _)))).subset) hm
  · rfl

theorem blockSpan_none {rest : List Char} (h : ¬ '>' ∈ rest) : blockSpan rest = none := by
  unfold blockSpan
  split
  · rename_i r1
    split
    · rename_i r3 hm
      refine closeAngle_none (fun hmem => h ?_)
      exact List.mem_cons_of_mem '/'
        (((matchName_sublist hm).trans (List.dropWhile_sublist _)).subset hmem)
    · rfl
  · rfl

theorem pTagSpan_none {rest : List Char} (h : ¬ '>' ∈ rest) : pTagSpan rest = none := by
  unfold pTagSpan
  split
  · refine closeAngle_none (fun hm => h ?_)
    exact (((List.drop_sublist _ _).trans ((slashSpace_sublist _).trans
      (List.dropWhile_sublist _))).subset) hm
  · rfl

theorem rss_id {l : List Char} (h : noTagSpan l) : rss l = l := by
  induction l with
  | nil => exact rss_nil
  | cons c rest ih =>
    by_cases hc : c = '<'
    · subst hc
      rw [rss_lt_none (scriptStyleSpan_none (noTagSpan_no_gt h)),
        ih (noTagSpan_tail h)]
    · rw [rss_other hc, ih (noTagSpan_tail h)]

theorem replaceBr_id {l : List Char} (h : noTagSpan l) : replaceBr l = l := by
  induction l with
  | nil => exact replaceBr_nil
  | cons c rest ih =>
    by_cases hc : c = '<'
    · subst hc
      rw [replaceBr_lt_none (brSpan_none (noTagSpan_no_gt h)), ih (noTagSpan_tail h)]
    · rw [replaceBr_other hc, ih (noTagSpan_tail h)]

theorem replaceBlockClose_id {l : List Char} (h : noTagSpan l) :
    replaceBlockClose l = l := by
  induction l with
  | nil => exact replaceBlockClose_nil
  | cons c rest ih =>
    by_cases hc : c = '<'
    · subst hc
      rw [replaceBlockClose_lt_none (blockSpan_none (noTagSpan_no_gt h)),
        ih (noTagSpan_tail h)]
    · rw [replaceBlockClose_other hc, ih (noTagSpan_tail h)]

theorem replacePTag_id {l : List Char} (h : noTagSpan l) : replacePTag l = l := by
  induction l with
  | nil => exact replacePTag_nil
  | cons c rest ih =>
    by_cases hc : c = '<'
    · subst hc
      rw [replacePTag_lt_none (pTagSpan_none (noTagSpan_no_gt h)),
        ih (noTagSpan_tail h)]
    · rw [replacePTag_other hc, ih (noTagSpan_tail h)]

theorem stripTags_id {l : List Char} (h : noTagSpan l) : stripTags l = l := by
  induction l with
  | nil => exact stripTags_nil
  | cons c rest ih =>
    by_cases hc : c = '<'
    · subst hc
      rw [stripTags_lt_none (splitAfterChar_none (noTagSpan_no_gt h)),
        ih (noTagSpan_tail h)]
    · rw [stripTags_other hc, ih (noTagSpan_tail h)]

theorem unescapeEnt_id {l : List Char} (h : ¬ '&' ∈ l) : unescapeEnt l = l := by
  induction l with
  | nil => exact unescapeEnt_nil
  | cons c rest ih =>
    have hc : ¬ c = '&' := fun hc => h (hc ▸ List.mem_cons_self c rest)
    rw [unescapeEnt_other hc, ih (fun hm => h (List.mem_cons_of_mem c hm))]

theorem rss_sublist (l : List Char) : List.Sublist (rss l) l := by
  induction l using rss.induct with
  | case1 => rw [rss_nil]
  | case2 rest r h ih =>
    rw [rss_lt_some h]
    exact (ih.trans (scriptStyleSpan_sublist h)).cons '<'
  | case3 rest h ih => rw [rss_lt_none h]; exact ih.cons₂ '<'
  | case4 c rest h ih => rw [rss_other h]; exact ih.cons₂ c

theorem stripTags_sublist (l : List Char) : List.Sublist (stripTags l) l := by
  induction l using stripTags.induct with
  | case1 => rw [stripTags_nil]
  | case2 rest r h ih =>
    rw [stripTags_lt_some h]
    exact (ih.trans (splitAfterChar_sublist h)).cons '<'
  | case3 rest h ih => rw [stripTags_lt_none h]; exact ih.cons₂ '<'
  | case4 c rest h ih => rw [stripTags_other h]; exact ih.cons₂ c

theorem collapseNl_sublist (l : List Char) : List.Sublist (collapseNl l) l := by
  induction l using collapseNl.induct with
  | case1 => rw [collapseNl_nil]
  | case2 rest h ih =>
    rw [collapseNl_nl_run h]
    exact (ih.trans (List.dropWhile_sublist _)).cons₂ '\n'
  | case3 rest h ih =>
    rw [collapseNl_nl_norun (by simpa using h)]
    exact ih.cons₂ '\n'
  | case4 c rest h ih => rw [collapseNl_other h]; exact ih.cons₂ c

theorem mem_replaceBr {c : Char} {l : List Char} (h : c ∈ replaceBr l) :
    c = '\n' ∨ c ∈ l := by
  induction l using replaceBr.induct with
  | case1 => rw [replaceBr_nil] at h; cases h
  | case2 rest r hs ih =>
    rw [replaceBr_lt_some hs] at h
    rcases List.mem_cons.mp h with h | h
    · exact Or.inl h
    · rcases ih h with h | h
      · exact Or.inl h
      · exact Or.inr (List.mem_cons_of_mem '<' ((brSpan_sublist hs).subset h))
  | case3 rest hs ih =>
    rw [replaceBr_lt_none hs] at h
    rcases List.mem_cons.mp h with h | h
    · exact Or.inr (h ▸ List.mem_cons_self _ _)
    · rcases ih h with h | h
      · exact Or.inl h
      · exact Or.inr (List.mem_cons_of_mem '<' h)
  | case4 c2 rest hs ih =>
    rw [replaceBr_other hs] at h
    rcases List.mem_cons.mp h with h | h
    · exact Or.inr (h ▸ List.mem_cons_self _ _)
    · rcases ih h with h | h
      · exact Or.inl h
      · exact Or.inr (List.mem_cons_of_mem c2 h)

theorem mem_replaceBlockClose {c : Char} {l : List Char}
    (h : c ∈ replaceBlockClose l) : c = '\n' ∨ c ∈ l := by
  induction l using replaceBlockClose.induct with
  | case1 => rw [replaceBlockClose_nil] at h; cases h
  | case2 rest r hs ih =>
    rw [replaceBlockClose_lt_some hs] at h
    rcases List.mem_cons.mp h with h | h
    · exact Or.inl h
    · rcases ih h with h | h
      · exact Or.inl h
      · exact Or.inr (List.mem_cons_of_mem '<' ((blockSpan_sublist hs).subset h))
  | case3 rest hs ih =>
    rw [replaceBlockClose_lt_none hs] at h
    rcases List.mem_cons.mp h with h | h
    · exact Or.inr (h ▸ List.mem_cons_self _ _)
    · rcases ih h with h | h
      · exact Or.inl h
      · exact Or.inr (List.mem_cons_of_mem '<' h)
  | case4 c2 rest hs ih =>
    rw [replaceBlockClose_other hs] at h
    rcases List.mem_cons.mp h with h | h
    · exact Or.inr (h ▸ List.mem_cons_self _ _)
    · rcases ih h with h | h
      · exact Or.inl h
      · exact Or.inr (List.mem_cons_of_mem c2 h)

theorem mem_replacePTag {c : Char} {l : List Char} (h : c ∈ replacePTag l) :
    c = '\n' ∨ c ∈ l := by
  induction l using replacePTag.induct with
  | case1 => rw [replacePTag_nil] at h; cases h
  | case2 rest r hs ih =>
    rw [replacePTag_lt_some hs] at h
    rcases List.mem_cons.mp h with h | h
    · exact Or.inl h
    · rcases ih h with h | h
      · exact Or.inl h
      · exact Or.inr (List.mem_cons_of_mem '<' ((pTagSpan_sublist hs).subset h))
  | case3 rest hs ih =>
    rw [replacePTag_lt_none hs] at h
    rcases List.mem_cons.mp h with h | h
    · exact Or.inr (h ▸ List.mem_cons_self _ _)
    · rcases ih h with h | h
      · exact Or.inl h
      · exact Or.inr (List.mem_cons_of_mem '<' h)
  | case4 c2 rest hs ih =>
    rw [replacePTag_other hs] at h
    rcases List.mem_cons.mp h with h | h
    · exact Or.inr (h ▸ List.mem_cons_self _ _)
    · rcases ih h with h | h
      · exact Or.inl h
      · exact Or.inr (List.mem_cons_of_mem c2 h)

theorem mem_collapseSpaces {c : Char} {l : List Char} (h : c ∈ collapseSpaces l) :
    c = ' ' ∨ c ∈ l := by
  induction l using collapseSpaces.induct with
  | case1 => rw [collapseSpaces_nil] at h; cases h
  | case2 c2 rest hs ih =>
    rw [collapseSpaces_hs hs] at h
    rcases List.mem_cons.mp h with h | h
    · exact Or.inl h
    · rcases ih h with h | h
      · exact Or.inl h
      · exact Or.inr (List.mem_cons_of_mem c2 ((List.dropWhile_sublist _).subset h))
  | case3 c2 rest hs ih =>
    rw [collapseSpaces_other (by simpa using hs)] at h
    rcases List.mem_cons.mp h with h | h
    · exact Or.inr (h ▸ List.mem_cons_self _ _)
    · rcases ih h with h | h
      · exact Or.inl h
      · exact Or.inr (List.mem_cons_of_mem c2 h)

/-- Head test: does the list start with a character satisfying `p`? -/
def headB (p : Char → Bool) : List Char → Bool
  | [] => false
  | c :: _ => p c

theorem headB_dropWhile (p : Char → Bool) (l : List Char) :
    headB p (l.dropWhile p) = false := by
  induction l with
  | nil => rfl
  | cons c cs ih =>
    rw [List.dropWhile_cons]
    split
    · exact ih
    · rename_i hc
      simpa [headB] using hc

theorem dropWhile_eq_self_of_headB {p : Char → Bool} {l : List Char}
    (h : headB p l = false) : l.dropWhile p = l := by
  cases l with
  | nil => rfl
  | cons c cs =>
    rw [List.dropWhile_cons, if_neg]
    simp only [headB] at h
    simp [h]

theorem takeWhile_eq_nil_of_headB {p : Char → Bool} {l : List Char}
    (h : headB p l = false) : l.takeWhile p = [] := by
  cases l with
  | nil => rfl
  | cons c cs =>
    rw [List.takeWhile_cons, if_neg]
    simp only [headB] at h
    simp [h]

theorem headB_append {p : Char → Bool} {x : List Char} (j : List Char)
    (hx : ¬ x = []) : headB p (x ++ j) = headB p x := by
  cases x with
  | nil => exact absurd rfl hx
  | cons c cs => rfl

theorem takeWhile_append_of_all {p : Char → Bool} {pre : List Char}
    (x : List Char) (h : ∀ c ∈ pre, p c = true) :
    (pre ++ x).takeWhile p = pre ++ x.takeWhile p := by
  induction pre with
  | nil => rfl
  | cons c cs ih =>
    rw [List.cons_append, List.takeWhile_cons,
      if_pos (h c (List.mem_cons_self c cs)),
      ih (fun d hd => h d (List.mem_cons_of_mem c hd))]
    rfl

theorem mem_takeWhile_append {p : Char → Bool} {c : Char} {a : List Char}
    (b : List Char) (h : c ∈ a.takeWhile p) : c ∈ (a ++ b).takeWhile p := by
  induction a with
  | nil => cases h
  | cons d ds ih =>
    rw [List.takeWhile_cons] at h
    rw [List.cons_append, List.takeWhile_cons]
    split at h
    · rename_i hd
      rw [if_pos hd]
      rcases List.mem_cons.mp h with h | h
      · exact h ▸ List.mem_cons_self _ _
      · exact List.mem_cons_of_mem d (ih h)
    · cases h

/-- The output of tag stripping never has a `<` anywhere before a `>`. -/
theorem splitAfterChar_some_of_mem {t : Char} {l : List Char} (h : t ∈ l) :
    ∃ r, splitAfterChar t l = some r := by
  induction l with
  | nil => cases h
  | cons c cs ih =>
    by_cases hc : c = t
    · exact ⟨cs, by unfold splitAfterChar; rw [if_pos hc]⟩
    · have hm : t ∈ cs := by
        rcases List.mem_cons.mp h with h | h
        · exact absurd h.symm hc
        · exact h
      rcases ih hm with ⟨r, hr⟩
      exact ⟨r, by unfold splitAfterChar; rw [if_neg hc, hr]⟩

/-- The output of tag stripping never has a `<` anywhere before a `>`. -/
theorem stripTags_noTagSpan (l : List Char) : noTagSpan (stripTags l) := by
  induction l using stripTags.induct with
  | case1 => rw [stripTags_nil]; intro hs; simp at hs
  | case2 rest r h ih => rw [stripTags_lt_some h]; exact ih
  | case3 rest h ih =>
    rw [stripTags_lt_none h]
    intro hs
    cases hs with
    | cons _ h2 => exact ih h2
    | cons₂ _ h2 =>
      have hgt : '>' ∈ stripTags rest := List.singleton_sublist.mp h2
      have hmem : '>' ∈ rest := (stripTags_sublist rest).subset hgt
      rcases splitAfterChar_some_of_mem hmem with ⟨r2, hr2⟩
      rw [hr2] at h
      cases h
  | case4 c rest h ih =>
    rw [stripTags_other h]
    intro hs
    cases hs with
    | cons _ h2 => exact ih h2
    | cons₂ _ h2 => exact h rfl

theorem collapseSpaces_filter (l : List Char) :
    (collapseSpaces l).filter (fun c => !(isHSpace c)) =
      l.filter (fun c => !(isHSpace c)) := by
  induction l using collapseSpaces.induct with
  | case1 => rw [collapseSpaces_nil]
  | case2 c rest hs ih =>
    rw [collapseSpaces_hs hs]
    have h1 : (' ' :: collapseSpaces (rest.dropWhile isHSpace)).filter
        (fun c => !(isHSpace c)) =
        (collapseSpaces (rest.dropWhile isHSpace)).filter (fun c => !(isHSpace c)) := by
      simp +decide [List.filter_cons]
    rw [h1, ih]
    have h4 : (c :: rest).filter (fun c => !(isHSpace c)) =
        rest.filter (fun c => !(isHSpace c)) := by
      simp [List.filter_cons, hs]
    rw [h4]
    conv_rhs => rw [← List.takeWhile_append_dropWhile isHSpace rest]
    rw [List.filter_append]
    have h3 : (rest.takeWhile isHSpace).filter (fun c => !(isHSpace c)) = [] := by
      refine List.filter_eq_nil_iff.mpr (fun a ha => ?_)
      simp [List.mem_takeWhile_imp ha]
    rw [h3, List.nil_append]
  | case3 c rest hs ih =>
    have hs2 : isHSpace c = false := by simpa using hs
    rw [collapseSpaces_other hs2]
    simp [List.filter_cons, hs2, ih]

theorem noTagSpan_collapseSpaces {l : List Char} (h : noTagSpan l) :
    noTagSpan (collapseSpaces l) := by
  intro hs
  have h1 : List.Sublist (['<', '>'].filter (fun c => !(isHSpace c)))
      ((collapseSpaces l).filter (fun c => !(isHSpace c))) := hs.filter _
  rw [collapseSpaces_filter] at h1
  have h2 : (['<', '>'].filter (fun c => !(isHSpace c))) = ['<', '>'] := by decide
  rw [h2] at h1
  exact h (h1.trans (List.filter_sublist _))

theorem dropWhile_eq_pyStrip_append (l : List Char) :
    l.dropWhile isPySpace =
      pyStrip l ++ ((l.dropWhile isPySpace).reverse.takeWhile isPySpace).reverse := by
  conv_lhs => rw [← List.reverse_reverse (l.dropWhile isPySpace)]
  conv_lhs =>
    rw [← List.takeWhile_append_dropWhile isPySpace (l.dropWhile isPySpace).reverse]
  rw [List.reverse_append]
  rfl

theorem pyStrip_decomp (l : List Char) :
    l = l.takeWhile isPySpace ++
      (pyStrip l ++ ((l.dropWhile isPySpace).reverse.takeWhile isPySpace).reverse) := by
  conv_lhs => rw [← List.takeWhile_append_dropWhile isPySpace l,
    dropWhile_eq_pyStrip_append l]

theorem pyStrip_sublist (l : List Char) : List.Sublist (pyStrip l) l := by
  conv_rhs => rw [pyStrip_decomp l]
  exact (List.sublist_append_left _ _).trans (List.sublist_append_right _ _)

/-- Fixed points of the horizontal-whitespace collapse: every horizontal
whitespace character is a plain space and no two horizontal whitespace
characters are adjacent. -/
def spacesOk : List Char → Bool
  | [] => true
  | c :: rest =>
    (if isHSpace c then c == ' ' && !(headB isHSpace rest) else true) && spacesOk rest

theorem spacesOk_tail {c : Char} {rest : List Char}
    (h : spacesOk (c :: rest) = true) : spacesOk rest = true := by
  unfold spacesOk at h
  exact (Bool.and_eq_true .. ▸ h).2

theorem collapseSpaces_id {l : List Char} (h : spacesOk l = true) :
    collapseSpaces l = l := by
  induction l with
  | nil => exact collapseSpaces_nil
  | cons c rest ih =>
    have h2 := spacesOk_tail h
    unfold spacesOk at h
    rw [Bool.and_eq_true] at h
    by_cases hh : isHSpace c = true
    · rw [if_pos hh, Bool.and_eq_true] at h
      have hsp : c = ' ' := by simpa using h.1.1
      have hhead : headB isHSpace rest = false := by simpa using h.1.2
      rw [collapseSpaces_hs hh, dropWhile_eq_self_of_headB hhead, ih h2, hsp]
    · rw [collapseSpaces_other (by simpa using hh), ih h2]

theorem headB_collapseSpaces_of_headB {l : List Char}
    (h : headB isHSpace l = false) : headB isHSpace (collapseSpaces l) = false := by
  cases l with
  | nil => rw [collapseSpaces_nil]; rfl
  | cons c rest =>
    simp only [headB] at h
    rw [collapseSpaces_other h]
    simpa [headB] using h

theorem spacesOk_collapseSpaces (l : List Char) : spacesOk (collapseSpaces l) = true := by
  induction l using collapseSpaces.induct with
  | case1 => rw [collapseSpaces_nil]; rfl
  | case2 c rest hs ih =>
    rw [collapseSpaces_hs hs]
    unfold spacesOk
    rw [Bool.and_eq_true]
    constructor
    · rw [if_pos (by decide : isHSpace ' ' = true), Bool.and_eq_true]
      refine ⟨by decide, ?_⟩
      have hhead : headB isHSpace (rest.dropWhile isHSpace) = false :=
        headB_dropWhile isHSpace rest
      rw [headB_collapseSpaces_of_headB hhead]
      rfl
    · exact ih
  | case3 c rest hs ih =>
    have hs2 : isHSpace c = false := by simpa using hs
    rw [collapseSpaces_other hs2]
    unfold spacesOk
    rw [Bool.and_eq_true]
    exact ⟨by rw [if_neg (by simp [hs2])], ih⟩

theorem spacesOk_append_right {a b : List Char} (h : spacesOk (a ++ b) = true) :
    spacesOk b = true := by
  induction a with
  | nil => exact h
  | cons c cs ih => exact ih (spacesOk_tail h)

theorem spacesOk_append_left {a b : List Char} (h : spacesOk (a ++ b) = true) :
    spacesOk a = true := by
  induction a with
  | nil => rfl
  | cons c cs ih =>
    rw [List.cons_append] at h
    have h2 := spacesOk_tail h
    unfold spacesOk at h
    rw [Bool.and_eq_true] at h
    unfold spacesOk
    rw [Bool.and_eq_true]
    refine ⟨?_, ih h2⟩
    by_cases hh : isHSpace c = true
    · rw [if_pos hh] at *
      rw [Bool.and_eq_true] at h
      rw [Bool.and_eq_true]
      refine ⟨h.1.1, ?_⟩
      cases cs with
      | nil => rfl
      | cons d ds =>
        rw [List.cons_append] at h
        exact h.1.2
    · rw [if_neg (by simp [hh])] at *

theorem headB_collapseNl {l : List Char} {p : Char → Bool} :
    headB p (collapseNl l) = headB p l := by
  cases l with
  | nil => rw [collapseNl_nil]
  | cons c rest =>
    by_cases hc : c = '\n'
    · subst hc
      by_cases hrun : (rest.takeWhile isPySpace).contains '\n' = true
      · rw [collapseNl_nl_run hrun]; rfl
      · rw [collapseNl_nl_norun (by simpa using hrun)]; rfl
    · rw [collapseNl_other hc]; rfl

theorem spacesOk_collapseNl {l : List Char} (h : spacesOk l = true) :
    spacesOk (collapseNl l) = true := by
  induction l using collapseNl.induct with
  | case1 => rw [collapseNl_nil]; rfl
  | case2 rest hrun ih =>
    rw [collapseNl_nl_run hrun]
    unfold spacesOk
    rw [Bool.and_eq_true]
    refine ⟨by rw [if_neg (by decide)], ?_⟩
    refine ih ?_
    have h2 := spacesOk_tail h
    have hdecomp : rest = rest.takeWhile isPySpace ++ rest.dropWhile isPySpace :=
      (List.takeWhile_append_dropWhile isPySpace rest).symm
    exact spacesOk_append_right (hdecomp ▸ h2)
  | case3 rest hrun ih =>
    rw [collapseNl_nl_norun (by simpa using hrun)]
    unfold spacesOk
    rw [Bool.and_eq_true]
    exact ⟨by rw [if_neg (by decide)], ih (spacesOk_tail h)⟩
  | case4 c rest hc ih =>
    rw [collapseNl_other hc]
    have h2 := spacesOk_tail h
    unfold spacesOk at h
    rw [Bool.and_eq_true] at h
    unfold spacesOk
    rw [Bool.and_eq_true]
    refine ⟨?_, ih h2⟩
    by_cases hh : isHSpace c = true
    · rw [if_pos hh] at *
      rw [Bool.and_eq_true] at h
      rw [Bool.and_eq_true]
      refine ⟨h.1.1, ?_⟩
      rw [headB_collapseNl]
      exact h.1.2
    · rw [if_neg (by simp [hh])]

theorem spacesOk_pyStrip {l : List Char} (h : spacesOk l = true) :
    spacesOk (pyStrip l) = true := by
  have hd := pyStrip_decomp l
  have h1 := spacesOk_append_right (hd ▸ h)
  exact spacesOk_append_left h1

/-- Fixed points of the blank-line collapse: no newline is followed, within
its whitespace run, by another newline. -/
def nlOk : List Char → Bool
  | [] => true
  | c :: rest =>
    (if c = '\n' then !((rest.takeWhile isPySpace).contains '\n') else true) && nlOk rest

theorem nlOk_tail {c : Char} {rest : List Char} (h : nlOk (c :: rest) = true) :
    nlOk rest = true := by
  unfold nlOk at h
  exact (Bool.and_eq_true .. ▸ h).2

theorem collapseNl_id {l : List Char} (h : nlOk l = true) : collapseNl l = l := by
  induction l with
  | nil => exact collapseNl_nil
  | cons c rest ih =>
    have h2 := nlOk_tail h
    unfold nlOk at h
    rw [Bool.and_eq_true] at h
    by_cases hc : c = '\n'
    · subst hc
      rw [if_pos rfl] at h
      have hrun : (rest.takeWhile isPySpace).contains '\n' = false := by
        simpa using h.1
      rw [collapseNl_nl_norun hrun, ih h2]
    · rw [collapseNl_other hc, ih h2]

theorem collapseNl_append_no_nl {pre : List Char} (x : List Char)
    (h : ∀ c ∈ pre, ¬ c = '\n') : collapseNl (pre ++ x) = pre ++ collapseNl x := by
  induction pre with
  | nil => rfl
  | cons c cs ih =>
    rw [List.cons_append, collapseNl_other (h c (List.mem_cons_self c cs)),
      ih (fun d hd => h d (List.mem_cons_of_mem c hd))]
    rfl

theorem nlOk_collapseNl (l : List Char) : nlOk (collapseNl l) = true := by
  induction l using collapseNl.induct with
  | case1 => rw [collapseNl_nil]; rfl
  | case2 rest hrun ih =>
    rw [collapseNl_nl_run hrun]
    unfold nlOk
    rw [Bool.and_eq_true]
    refine ⟨?_, ih⟩
    rw [if_pos rfl]
    have hhead : headB isPySpace (collapseNl (rest.dropWhile isPySpace)) = false := by
      rw [headB_collapseNl]
      exact headB_dropWhile isPySpace rest
    rw [takeWhile_eq_nil_of_headB hhead]
    rfl
  | case3 rest hrun ih =>
    rw [collapseNl_nl_norun (by simpa using hrun)]
    unfold nlOk
    rw [Bool.and_eq_true]
    refine ⟨?_, ih⟩
    rw [if_pos rfl]
    have hrun2 : (rest.takeWhile isPySpace).contains '\n' = false := by
      simpa using hrun
    have hrun3 : ¬ '\n' ∈ rest.takeWhile isPySpace := by simpa using hrun2
    have hnn : ∀ c ∈ rest.takeWhile isPySpace, ¬ c = '\n' := by
      intro c hc hceq
      exact hrun3 (hceq ▸ hc)
    have hsplit : collapseNl rest =
        rest.takeWhile isPySpace ++ collapseNl (rest.dropWhile isPySpace) := by
      conv_lhs => rw [← List.takeWhile_append_dropWhile isPySpace rest]
      exact collapseNl_append_no_nl _ hnn
    rw [hsplit, takeWhile_append_of_all _ (fun c hc => List.mem_takeWhile_imp hc)]
    have hhead : headB isPySpace (collapseNl (rest.dropWhile isPySpace)) = false := by
      rw [headB_collapseNl]
      exact headB_dropWhile isPySpace rest
    rw [takeWhile_eq_nil_of_headB hhead, List.append_nil]
    simpa using hrun2
  | case4 c rest hc ih =>
    rw [collapseNl_other hc]
    unfold nlOk
    rw [Bool.and_eq_true]
    exact ⟨by rw [if_neg hc], ih⟩

theorem nlOk_append_right {a b : List Char} (h : nlOk (a ++ b) = true) :
    nlOk b = true := by
  induction a with
  | nil => exact h
  | cons c cs ih => exact ih (nlOk_tail h)

theorem nlOk_append_left {a b : List Char} (h : nlOk (a ++ b) = true) :
    nlOk a = true := by
  induction a with
  | nil => rfl
  | cons c cs ih =>
    rw [List.cons_append] at h
    have h2 := nlOk_tail h
    unfold nlOk at h
    rw [Bool.and_eq_true] at h
    unfold nlOk
    rw [Bool.and_eq_true]
    refine ⟨?_, ih h2⟩
    by_cases hc : c = '\n'
    · rw [if_pos hc] at *
      have h3 : ((cs ++ b).takeWhile isPySpace).contains '\n' = false := by
        simpa using h.1
      have h4 : ¬ '\n' ∈ (cs ++ b).takeWhile isPySpace := by simpa using h3
      have h5 : ¬ '\n' ∈ cs.takeWhile isPySpace :=
        fun hm => h4 (mem_takeWhile_append b hm)
      simpa using h5
    · rw [if_neg hc]

theorem nlOk_pyStrip {l : List Char} (h : nlOk l = true) :
    nlOk (pyStrip l) = true := by
  have hd := pyStrip_decomp l
  exact nlOk_append_left (nlOk_append_right (hd ▸ h))

/-- Last-character test, mirroring `headB` at the other end. -/
def lastB (p : Char → Bool) (l : List Char) : Bool := headB p l.reverse

theorem headB_pyStrip (l : List Char) : headB isPySpace (pyStrip l) = false := by
  have hz := dropWhile_eq_pyStrip_append l
  have hzh := headB_dropWhile isPySpace l
  cases hps : pyStrip l with
  | nil => rfl
  | cons c cs =>
    rw [hps, List.cons_append] at hz
    rw [hz] at hzh
    exact hzh

theorem lastB_pyStrip (l : List Char) : lastB isPySpace (pyStrip l) = false := by
  unfold lastB pyStrip
  rw [List.reverse_reverse]
  exact headB_dropWhile isPySpace _

theorem pyStrip_id {l : List Char} (h1 : headB isPySpace l = false)
    (h2 : lastB isPySpace l = false) : pyStrip l = l := by
  unfold pyStrip
  rw [dropWhile_eq_self_of_headB h1]
  unfold lastB at h2
  rw [dropWhile_eq_self_of_headB h2, List.reverse_reverse]

theorem lastB_eq_false_iff (p : Char → Bool) (l : List Char) :
    lastB p l = false ↔ ∀ c, l.getLast? = some c → p c = false := by
  unfold lastB
  cases hrev : l.reverse with
  | nil =>
    have hl : l = [] := by simpa using congrArg List.reverse hrev
    subst hl
    simp [headB]
  | cons c cs =>
    have hg : l.getLast? = some c := by
      rw [← List.head?_reverse, hrev]
      rfl
    simp only [headB, hg]
    constructor
    · intro hp d hd
      cases hd
      · exact hp
    · intro hall
      exact hall c rfl

theorem collapseNl_ne_nil {l : List Char} (h : ¬ l = []) : ¬ collapseNl l = [] := by
  cases l with
  | nil => exact absurd rfl h
  | cons c rest =>
    by_cases hc : c = '\n'
    · subst hc
      by_cases hrun : (rest.takeWhile isPySpace).contains '\n' = true
      · rw [collapseNl_nl_run hrun]; simp
      · rw [collapseNl_nl_norun (by simpa using hrun)]; simp
    · rw [collapseNl_other hc]; simp

theorem getLast?_cons_of_ne_nil {c : Char} {x : List Char} (h : ¬ x = []) :
    (c :: x).getLast? = x.getLast? := by
  cases x with
  | nil => exact absurd rfl h
  | cons d ds => exact List.getLast?_cons_cons

theorem collapseNl_getLast? {l : List Char} {c : Char} (h : l.getLast? = some c)
    (hpc : isPySpace c = false) : (collapseNl l).getLast? = some c := by
  induction l using collapseNl.induct with
  | case1 => simp at h
  | case2 rest hrun ih =>
    cases rest with
    | nil =>
      have : c = '\n' := by simpa using h.symm
      subst this
      exact absurd hpc (by decide)
    | cons r rs =>
      have h' : (r :: rs).getLast? = some c := by
        rwa [List.getLast?_cons_cons] at h
      by_cases hd : (r :: rs).dropWhile isPySpace = []
      · have hall := List.dropWhile_eq_nil_iff.mp hd
        have hcmem : c ∈ r :: rs := List.mem_of_mem_getLast? h'
        exact absurd (hall c hcmem) (by simp [hpc])
      · have hlast2 : ((r :: rs).dropWhile isPySpace).getLast? = some c := by
          have hsp : (r :: rs) =
              (r :: rs).takeWhile isPySpace ++ (r :: rs).dropWhile isPySpace :=
            (List.takeWhile_append_dropWhile isPySpace (r :: rs)).symm
          rw [hsp, List.getLast?_append_of_ne_nil _ hd] at h'
          exact h'
        have ihd := ih hlast2
        rw [collapseNl_nl_run hrun,
          getLast?_cons_of_ne_nil (collapseNl_ne_nil hd)]
        exact ihd
  | case3 rest hrun ih =>
    cases rest with
    | nil =>
      have : c = '\n' := by simpa using h.symm
      subst this
      exact absurd hpc (by decide)
    | cons r rs =>
      have h' : (r :: rs).getLast? = some c := by
        rwa [List.getLast?_cons_cons] at h
      rw [collapseNl_nl_norun (by simpa using hrun),
        getLast?_cons_of_ne_nil (collapseNl_ne_nil (by simp))]
      exact ih h'
  | case4 c2 rest hc2 ih =>
    cases rest with
    | nil =>
      rw [collapseNl_other hc2, collapseNl_nil]
      exact h
    | cons r rs =>
      have h' : (r :: rs).getLast? = some c := by
        rwa [List.getLast?_cons_cons] at h
      rw [collapseNl_other hc2,
        getLast?_cons_of_ne_nil (collapseNl_ne_nil (by simp))]
      exact ih h'

theorem lastB_collapseNl {l : List Char} (h : lastB isPySpace l = false) :
    lastB isPySpace (collapseNl l) = false := by
  by_cases hl : l = []
  · subst hl
    rw [collapseNl_nil]
    exact h
  · rw [lastB_eq_false_iff] at h ⊢
    intro c hc
    cases hg : l.getLast? with
    | none => exact absurd (List.getLast?_eq_none_iff.mp hg) hl
    | some d =>
      have hpd : isPySpace d = false := h d hg
      have := collapseNl_getLast? hg hpd
      rw [this] at hc
      cases hc
      exact hpd

/-- The structured-path normalizer at the character-list level
(`PopMsg.html_to_text` is exactly this on `String.data`). -/
def normMsg (l : List Char) : List Char :=
  collapseNl (pyStrip (collapseSpaces (unescapeEnt (stripTags
    (replaceBlockClose (replaceBr (rss l)))))))

/-- The flat-corpus-path normalizer at the character-list level
(`PopTxt.html_to_text` is exactly this on `String.data`). -/
def normTxt (l : List Char) : List Char :=
  pyStrip (collapseNl (collapseSpaces (unescapeEnt (stripTags
    (replacePTag (replaceBr (rss l)))))))

theorem amp_not_mem_tagStagesMsg {l : List Char} (h : ¬ '&' ∈ l) :
    ¬ '&' ∈ stripTags (replaceBlockClose (replaceBr (rss l))) := by
  intro hm
  have h1 : '&' ∈ replaceBlockClose (replaceBr (rss l)) :=
    (stripTags_sublist _).subset hm
  rcases mem_replaceBlockClose h1 with he | h2
  · cases he
  rcases mem_replaceBr h2 with he | h3
  · cases he
  exact h ((rss_sublist l).subset h3)

theorem amp_not_mem_tagStagesTxt {l : List Char} (h : ¬ '&' ∈ l) :
    ¬ '&' ∈ stripTags (replacePTag (replaceBr (rss l))) := by
  intro hm
  have h1 : '&' ∈ replacePTag (replaceBr (rss l)) :=
    (stripTags_sublist _).subset hm
  rcases mem_replacePTag h1 with he | h2
  · cases he
  rcases mem_replaceBr h2 with he | h3
  · cases he
  exact h ((rss_sublist l).subset h3)

theorem normMsg_facts (l : List Char) (h : ¬ '&' ∈ l) :
    noTagSpan (normMsg l) ∧ ¬ '&' ∈ normMsg l ∧ spacesOk (normMsg l) = true
    ∧ nlOk (normMsg l) = true ∧ headB isPySpace (normMsg l) = false
    ∧ lastB isPySpace (normMsg l) = false := by
  have hamp4 := amp_not_mem_tagStagesMsg h
  have hnt4 := stripTags_noTagSpan (replaceBlockClose (replaceBr (rss l)))
  have hu : normMsg l = collapseNl (pyStrip (collapseSpaces
      (stripTags (replaceBlockClose (replaceBr (rss l)))))) := by
    unfold normMsg
    rw [unescapeEnt_id hamp4]
  rw [hu]
  refine ⟨?_, ?_, ?_, ?_, ?_, ?_⟩
  · exact noTagSpan_of_sublist (collapseNl_sublist _)
      (noTagSpan_of_sublist (pyStrip_sublist _) (noTagSpan_collapseSpaces hnt4))
  · intro hm
    have h1 := (collapseNl_sublist _).subset hm
    have h2 := (pyStrip_sublist _).subset h1
    rcases mem_collapseSpaces h2 with he | h3
    · cases he
    exact hamp4 h3
  · exact spacesOk_collapseNl (spacesOk_pyStrip (spacesOk_collapseSpaces _))
  · exact nlOk_collapseNl _
  · rw [headB_collapseNl]
    exact headB_pyStrip _
  · exact lastB_collapseNl (lastB_pyStrip _)

theorem normTxt_facts (l : List Char) (h : ¬ '&' ∈ l) :
    noTagSpan (normTxt l) ∧ ¬ '&' ∈ normTxt l ∧ spacesOk (normTxt l) = true
    ∧ nlOk (normTxt l) = true ∧ headB isPySpace (normTxt l) = false
    ∧ lastB isPySpace (normTxt l) = false := by
  have hamp4 := amp_not_mem_tagStagesTxt h
  have hnt4 := stripTags_noTagSpan (replacePTag (replaceBr (rss l)))
  have hu : normTxt l = pyStrip (collapseNl (collapseSpaces
      (stripTags (replacePTag (replaceBr (rss l)))))) := by
    unfold normTxt
    rw [unescapeEnt_id hamp4]
  rw [hu]
  refine ⟨?_, ?_, ?_, ?_, ?_, ?_⟩
  · exact noTagSpan_of_sublist (pyStrip_sublist _)
      (noTagSpan_of_sublist (collapseNl_sublist _) (noTagSpan_collapseSpaces hnt4))
  · intro hm
    have h1 := (pyStrip_sublist _).subset hm
    have h2 := (collapseNl_sublist _).subset h1
    rcases mem_collapseSpaces h2 with he | h3
    · cases he
    exact hamp4 h3
  · exact spacesOk_pyStrip (spacesOk_collapseNl (spacesOk_collapseSpaces _))
  · exact nlOk_pyStrip (nlOk_collapseNl _)
  · exact headB_pyStrip _
  · exact lastB_pyStrip _

theorem normMsg_id {t : List Char} (hnt : noTagSpan t) (hamp : ¬ '&' ∈ t)
    (hsp : spacesOk t = true) (hnl : nlOk t = true)
    (hh : headB isPySpace t = false) (hl : lastB isPySpace t = false) :
    normMsg t = t := by
  unfold normMsg
  rw [rss_id hnt, replaceBr_id hnt, replaceBlockClose_id hnt, stripTags_id hnt,
    unescapeEnt_id hamp, collapseSpaces_id hsp, pyStrip_id hh hl, collapseNl_id hnl]

theorem normTxt_id {t : List Char} (hnt : noTagSpan t) (hamp : ¬ '&' ∈ t)
    (hsp : spacesOk t = true) (hnl : nlOk t = true)
    (hh : headB isPySpace t = false) (hl : lastB isPySpace t = false) :
    normTxt t = t := by
  unfold normTxt
  rw [rss_id hnt, replaceBr_id hnt, replacePTag_id hnt, stripTags_id hnt,
    unescapeEnt_id hamp, collapseSpaces_id hsp, collapseNl_id hnl, pyStrip_id hh hl]

/-- C4 as amended: on every input without an ampersand, each of the two
normalizers is idempotent (entity unescaping after tag stripping is what
breaks idempotence in general). -/
theorem html_to_text_idempotent_amp_free (s : String) (h : ¬ '&' ∈ s.data) :
    PopMsg.html_to_text (PopMsg.html_to_text s) = PopMsg.html_to_text s
    ∧ PopTxt.html_to_text (PopTxt.html_to_text s) = PopTxt.html_to_text s := by
  constructor
  · have hf := normMsg_facts s.data h
    show (⟨normMsg (normMsg s.data)⟩ : String) = ⟨normMsg s.data⟩
    exact congrArg String.mk
      (normMsg_id hf.1 hf.2.1 hf.2.2.1 hf.2.2.2.1 hf.2.2.2.2.1 hf.2.2.2.2.2)
  · have hf := normTxt_facts s.data h
    show (⟨normTxt (normTxt s.data)⟩ : String) = ⟨normTxt s.data⟩
    exact congrArg String.mk
      (normTxt_id hf.1 hf.2.1 hf.2.2.1 hf.2.2.2.1 hf.2.2.2.2.1 hf.2.2.2.2.2)

/-- Closed instance of the C4 theorem at a concrete tag-bearing input. -/
theorem html_to_text_idempotent_amp_free_witness :
    ¬ '&' ∈ "<p>Hi</p>".data
    ∧ PopMsg.html_to_text (PopMsg.html_to_text "<p>Hi</p>") = PopMsg.html_to_text "<p>Hi</p>"
    ∧ PopTxt.html_to_text (PopTxt.html_to_text "<p>Hi</p>") = PopTxt.html_to_text "<p>Hi</p>" :=
  ⟨by decide, (html_to_text_idempotent_amp_free "<p>Hi</p>" (by decide)).1,
   (html_to_text_idempotent_amp_free "<p>Hi</p>" (by decide)).2⟩

/-- C4 counterexample: on `"&lt;b&gt;"` each normalizer outputs `"<b>"`,
which a second application strips to `""`: not idempotent. -/
theorem html_to_text_idempotent_counterexample :
    PopMsg.html_to_text "&lt;b&gt;" = "<b>"
    ∧ PopMsg.html_to_text (PopMsg.html_to_text "&lt;b&gt;") = ""
    ∧ ¬ PopMsg.html_to_text (PopMsg.html_to_text "&lt;b&gt;") = PopMsg.html_to_text "&lt;b&gt;"
    ∧ PopTxt.html_to_text "&lt;b&gt;" = "<b>"
    ∧ PopTxt.html_to_text (PopTxt.html_to_text "&lt;b&gt;") = ""
    ∧ ¬ PopTxt.html_to_text (PopTxt.html_to_text "&lt;b&gt;") = PopTxt.html_to_text "&lt;b&gt;" := by
  have e1 : PopMsg.html_to_text "&lt;b&gt;" = "<b>" := by
    simp +decide [PopMsg.html_to_text, scriptStyleSpan, tagSpan, ciStartsWith, lowerEq,
      splitAfterChar, splitAfterCI, brSpan, closeAngle, slashOpt, slashSpace,
      blockSpan, matchName, blockNames, pTagSpan, entLookup, entTable,
      List.isPrefixOf, pyStrip, isPySpace, isHSpace]
  have e2 : PopMsg.html_to_text "<b>" = "" := by
    simp +decide [PopMsg.html_to_text, scriptStyleSpan, tagSpan, ciStartsWith, lowerEq,
      splitAfterChar, splitAfterCI, brSpan, closeAngle, slashOpt, slashSpace,
      blockSpan, matchName, blockNames, pTagSpan, entLookup, entTable,
      List.isPrefixOf, pyStrip, isPySpace, isHSpace]
  have e3 : PopTxt.html_to_text "&lt;b&gt;" = "<b>" := by
    simp +decide [PopTxt.html_to_text, scriptStyleSpan, tagSpan, ciStartsWith, lowerEq,
      splitAfterChar, splitAfterCI, brSpan, closeAngle, slashOpt, slashSpace,
      blockSpan, matchName, blockNames, pTagSpan, entLookup, entTable,
      List.isPrefixOf, pyStrip, isPySpace, isHSpace]
  have e4 : PopTxt.html_to_text "<b>" = "" := by
    simp +decide [PopTxt.html_to_text, scriptStyleSpan, tagSpan, ciStartsWith, lowerEq,
      splitAfterChar, splitAfterCI, brSpan, closeAngle, slashOpt, slashSpace,
      blockSpan, matchName, blockNames, pTagSpan, entLookup, entTable,
      List.isPrefixOf, pyStrip, isPySpace, isHSpace]
  refine ⟨e1, by rw [e1, e2], by rw [e1, e2]; decide,
    e3, by rw [e3, e4], by rw [e3, e4]; decide⟩

/-- C5 as amended: a single-part HTML message whose decoded payload has no
ampersand yields a body with no ampersand (hence no entities) and no
complete markup tag: no `<` in the body is ever followed by a `>`. -/
theorem html_body_no_tags_no_entities (hs : List (String × String))
    (ct d payload : String) (hct : pyLower ct = "text/html")
    (hamp : ¬ '&' ∈ payload.data) :
    ¬ '&' ∈ (PopMsg.extract_text_body (Msg.leaf hs ct d payload)).data
    ∧ noTagSpan (PopMsg.extract_text_body (Msg.leaf hs ct d payload)).data := by
  have hb : PopMsg.extract_text_body (Msg.leaf hs ct d payload) =
      (⟨normMsg payload.data⟩ : String) := by
    simp only [PopMsg.extract_text_body, if_pos hct]
    rfl
  rw [hb]
  have hf := normMsg_facts payload.data hamp
  exact ⟨hf.2.1, hf.1⟩

/-- Closed instance of the C5 theorem at a concrete single-part HTML
message. -/
theorem html_body_no_tags_no_entities_witness :
    pyLower "text/html" = "text/html"
    ∧ ¬ '&' ∈ "a<p>b".data
    ∧ ¬ '&' ∈ (PopMsg.extract_text_body (Msg.leaf [] "text/html" "" "a<p>b")).data
    ∧ noTagSpan (PopMsg.extract_text_body (Msg.leaf [] "text/html" "" "a<p>b")).data :=
  ⟨by decide, by decide,
   (html_body_no_tags_no_entities [] "text/html" "" "a<p>b" (by decide) (by decide)).1,
   (html_body_no_tags_no_entities [] "text/html" "" "a<p>b" (by decide) (by decide)).2⟩

/-- C5 counterexample: a lone `<` in an HTML payload survives into the body
(no `>` follows, so no tag matches), and an escaped entity re-created by
unescaping (`&amp;lt;` becomes `&lt;`) survives as an entity. -/
theorem html_body_tag_chars_counterexample :
    PopMsg.extract_text_body (Msg.leaf [] "text/html" "" "1 < 2") = "1 < 2"
    ∧ '<' ∈ "1 < 2".data
    ∧ PopMsg.extract_text_body (Msg.leaf [] "text/html" "" "x &amp;lt; y") = "x &lt; y"
    ∧ hasSub "&lt;".data "x &lt; y".data = true := by
  refine ⟨?_, by decide, ?_, by decide⟩ <;>
    simp +decide [PopMsg.extract_text_body, PopMsg.html_to_text, pyLower,
      scriptStyleSpan, tagSpan, ciStartsWith, lowerEq, splitAfterChar, splitAfterCI,
      brSpan, closeAngle, slashOpt, slashSpace, blockSpan, matchName, blockNames,
      pTagSpan, entLookup, entTable, List.isPrefixOf, pyStrip, isPySpace, isHSpace]

/-!
C6: universal behavior of the block-substitution steps.  The scanning
functions copy any `<`-free prefix verbatim, so tag behavior in arbitrary
context reduces to the head-step lemmas below, and the `some`-shape lemmas
characterize exactly which spans each step can replace.
-/

theorem replaceBlockClose_append_no_lt {a : List Char} (x : List Char)
    (h : ¬ '<' ∈ a) : replaceBlockClose (a ++ x) = a ++ replaceBlockClose x := by
  induction a with
  | nil => rfl
  | cons c cs ih =>
    rw [List.cons_append,
      replaceBlockClose_other (fun hc => h (hc ▸ List.mem_cons_self c cs)),
      ih (fun hm => h (List.mem_cons_of_mem c hm))]
    rfl

theorem replacePTag_append_no_lt {a : List Char} (x : List Char)
    (h : ¬ '<' ∈ a) : replacePTag (a ++ x) = a ++ replacePTag x := by
  induction a with
  | nil => rfl
  | cons c cs ih =>
    rw [List.cons_append,
      replacePTag_other (fun hc => h (hc ▸ List.mem_cons_self c cs)),
      ih (fun hm => h (List.mem_cons_of_mem c hm))]
    rfl

theorem mem_blockNames_elim {t : List Char} (ht : t ∈ blockNames) :
    t = ['p'] ∨ t = ['d', 'i', 'v'] ∨ t = ['h', '1'] ∨ t = ['h', '2'] ∨ t = ['h', '3']
    ∨ t = ['h', '4'] ∨ t = ['h', '5'] ∨ t = ['h', '6'] ∨ t = ['l', 'i']
    ∨ t = ['t', 'r'] := by
  simpa [blockNames] using ht

theorem blockCloseStep {t : List Char} (ht : t ∈ blockNames) (b : List Char) :
    replaceBlockClose ('<' :: '/' :: (t ++ ('>' :: b))) = '\n' :: replaceBlockClose b := by
  rcases mem_blockNames_elim ht with rfl | rfl | rfl | rfl | rfl | rfl | rfl | rfl | rfl | rfl <;>
    simp +decide [blockSpan, matchName, blockNames, closeAngle, ciStartsWith, lowerEq,
      List.dropWhile_cons, isPySpace]

theorem blockOpenStep {t : List Char} (ht : t ∈ blockNames) (b : List Char) :
    replaceBlockClose ('<' :: (t ++ ('>' :: b))) =
      '<' :: (t ++ ('>' :: replaceBlockClose b)) := by
  rcases mem_blockNames_elim ht with rfl | rfl | rfl | rfl | rfl | rfl | rfl | rfl | rfl | rfl <;>
    simp +decide [blockSpan, matchName, blockNames, closeAngle, ciStartsWith, lowerEq,
      List.dropWhile_cons, isPySpace]

theorem pOpenStep (b : List Char) :
    replacePTag ('<' :: 'p' :: '>' :: b) = '\n' :: replacePTag b := by
  simp +decide [pTagSpan, slashSpace, closeAngle, ciStartsWith, lowerEq,
    List.dropWhile_cons, isPySpace]

theorem pCloseStep (b : List Char) :
    replacePTag ('<' :: '/' :: 'p' :: '>' :: b) = '\n' :: replacePTag b := by
  simp +decide [pTagSpan, slashSpace, closeAngle, ciStartsWith, lowerEq,
    List.dropWhile_cons, isPySpace]

theorem pTagNonPStep {t : List Char} (ht : t ∈ blockNames) (hne : ¬ t = ['p'])
    (b : List Char) :
    replacePTag ('<' :: '/' :: (t ++ ('>' :: b))) =
        '<' :: '/' :: (t ++ ('>' :: replacePTag b))
      ∧ replacePTag ('<' :: (t ++ ('>' :: b))) =
        '<' :: (t ++ ('>' :: replacePTag b)) := by
  rcases mem_blockNames_elim ht with rfl | rfl | rfl | rfl | rfl | rfl | rfl | rfl | rfl | rfl
  · exact absurd rfl hne
  all_goals
    constructor <;>
      simp +decide [pTagSpan, slashSpace, closeAngle, ciStartsWith, lowerEq,
        List.dropWhile_cons, isPySpace]

theorem stripTagsBlockStep {t : List Char} (ht : t ∈ blockNames) (b : List Char) :
    stripTags ('<' :: '/' :: (t ++ ('>' :: b))) = stripTags b
      ∧ stripTags ('<' :: (t ++ ('>' :: b))) = stripTags b := by
  rcases mem_blockNames_elim ht with rfl | rfl | rfl | rfl | rfl | rfl | rfl | rfl | rfl | rfl <;>
    exact ⟨by simp +decide [splitAfterChar], by simp +decide [splitAfterChar]⟩

theorem matchName_some_shape {ns : List (List Char)} {l r3 : List Char}
    (h : matchName ns l = some r3) :
    ∃ t, t ∈ ns ∧ ciStartsWith t l = true ∧ r3 = l.drop t.length := by
  induction ns with
  | nil => simp [matchName] at h
  | cons n ns ih =>
    simp only [matchName] at h
    split at h
    · rename_i hci
      cases h
      exact ⟨n, List.mem_cons_self n ns, hci, rfl⟩
    · rcases ih h with ⟨t, ht, hci, hr⟩
      exact ⟨t, List.mem_cons_of_mem n ht, hci, hr⟩

theorem ciStartsWith_length_le {t l : List Char} (h : ciStartsWith t l = true) :
    t.length ≤ l.length := by
  induction t generalizing l with
  | nil => simp
  | cons p ps ih =>
    cases l with
    | nil => simp [ciStartsWith] at h
    | cons c cs =>
      simp only [ciStartsWith, Bool.and_eq_true] at h
      simpa using ih h.2

theorem ciStartsWith_take {t l : List Char} (h : ciStartsWith t l = true) :
    ciStartsWith t (l.take t.length) = true := by
  induction t generalizing l with
  | nil => rfl
  | cons p ps ih =>
    cases l with
    | nil => simp [ciStartsWith] at h
    | cons c cs =>
      simp only [ciStartsWith, Bool.and_eq_true] at h
      rw [List.length_cons, List.take_succ_cons]
      simp only [ciStartsWith, Bool.and_eq_true]
      exact ⟨h.1, ih h.2⟩

theorem closeAngle_some_shape {l r : List Char} (h : closeAngle l = some r) :
    ∃ w, (∀ c ∈ w, isPySpace c = true) ∧ l = w ++ ('>' :: r) := by
  unfold closeAngle at h
  split at h
  · rename_i r0 heq
    injection h with h2
    subst h2
    refine ⟨l.takeWhile isPySpace, fun c hc => List.mem_takeWhile_imp hc, ?_⟩
    conv_lhs => rw [← List.takeWhile_append_dropWhile isPySpace l]
    rw [heq]
  · exact absurd h (by simp)

theorem blockSpan_some_shape {rest r : List Char} (h : blockSpan rest = some r) :
    ∃ t, t ∈ blockNames ∧ ∃ w1 nm w2,
      (∀ c ∈ w1, isPySpace c = true) ∧ (∀ c ∈ w2, isPySpace c = true) ∧
      ciStartsWith t nm = true ∧ nm.length = t.length ∧
      rest = '/' :: (w1 ++ (nm ++ (w2 ++ ('>' :: r)))) := by
  unfold blockSpan at h
  split at h
  · rename_i r1
    split at h
    · rename_i r3 hm
      rcases matchName_some_shape hm with ⟨t, ht, hci, hr3⟩
      rcases closeAngle_some_shape h with ⟨w2, hw2, hr3b⟩
      refine ⟨t, ht, r1.takeWhile isPySpace, (r1.dropWhile isPySpace).take t.length, w2,
        fun c hc => List.mem_takeWhile_imp hc, hw2, ciStartsWith_take hci, ?_, ?_⟩
      · rw [List.length_take]
        exact min_eq_left (ciStartsWith_length_le hci)
      · congr 1
        conv_lhs => rw [← List.takeWhile_append_dropWhile isPySpace r1]
        congr 1
        conv_lhs => rw [← List.take_append_drop t.length (r1.dropWhile isPySpace)]
        congr 1
        rw [← hr3, hr3b]
    · exact absurd h (by simp)
  · exact absurd h (by simp)

theorem slashSpace_decomp (l : List Char) :
    ∃ sl w2, (sl = [] ∨ sl = ['/']) ∧ (∀ c ∈ w2, isPySpace c = true) ∧
      l = sl ++ (w2 ++ slashSpace l) := by
  unfold slashSpace
  split
  · rename_i hhead
    cases l with
    | nil => simp at hhead
    | cons c cs =>
      have hc : c = '/' := by simpa using hhead
      subst hc
      refine ⟨['/'], cs.takeWhile isPySpace, Or.inr rfl,
        fun d hd => List.mem_takeWhile_imp hd, ?_⟩
      have hdrop : ('/' :: cs).drop 1 = cs := rfl
      rw [hdrop]
      conv_lhs => rw [← List.takeWhile_append_dropWhile isPySpace cs]
      rfl
  · exact ⟨[], [], Or.inl rfl, by simp, by simp⟩

theorem pTagSpan_some_shape {rest r : List Char} (h : pTagSpan rest = some r) :
    ∃ w1 sl w2 nm w3,
      (∀ c ∈ w1, isPySpace c = true) ∧ (sl = [] ∨ sl = ['/']) ∧
      (∀ c ∈ w2, isPySpace c = true) ∧ lowerEq 'p' nm = true ∧
      (∀ c ∈ w3, isPySpace c = true) ∧
      rest = w1 ++ (sl ++ (w2 ++ (nm :: (w3 ++ ('>' :: r))))) := by
  unfold pTagSpan at h
  split at h
  · rename_i hci
    cases hr2 : slashSpace (rest.dropWhile isPySpace) with
    | nil =>
      rw [hr2] at hci
      simp [ciStartsWith] at hci
    | cons nm r2t =>
      rw [hr2] at hci h
      have hnm : lowerEq 'p' nm = true := by
        simpa [ciStartsWith] using hci
      have hca : closeAngle r2t = some r := by simpa using h
      rcases closeAngle_some_shape hca with ⟨w3, hw3, hr2t⟩
      rcases slashSpace_decomp (rest.dropWhile isPySpace) with ⟨sl, w2, hsl, hw2, hdec⟩
      refine ⟨rest.takeWhile isPySpace, sl, w2, nm, w3,
        fun c hc => List.mem_takeWhile_imp hc, hsl, hw2, hnm, hw3, ?_⟩
      conv_lhs => rw [← List.takeWhile_append_dropWhile isPySpace rest]
      congr 1
      rw [hdec, hr2, hr2t]
  · exact absurd h (by simp)

/-- C6 as amended, universally over inputs.  Structured path: in any
context whose preceding text has no `<`, the closing tag of each of p, div,
h1-h6, li, tr becomes a newline, while the opening tag of each of them
passes through this step unchanged; moreover the only spans this step ever
replaces are exactly closing tags `</\s*name\s*>` of those ten names.
Flat-corpus path: both `<p>` and `</p>` become a newline; every opening or
closing div/h1-h6/li/tr tag passes through the block step unchanged; the
only spans it ever replaces are exactly `<\s*/?\s*p\s*>` tags.  Finally,
the general tag-stripping step removes the opening and closing forms of
all ten names. -/
theorem block_tag_steps_exactly :
    (∀ t, t ∈ blockNames → ∀ a b : List Char, ¬ '<' ∈ a →
      replaceBlockClose (a ++ ('<' :: '/' :: (t ++ ('>' :: b)))) =
        a ++ ('\n' :: replaceBlockClose b))
    ∧ (∀ t, t ∈ blockNames → ∀ a b : List Char, ¬ '<' ∈ a →
      replaceBlockClose (a ++ ('<' :: (t ++ ('>' :: b)))) =
        a ++ ('<' :: (t ++ ('>' :: replaceBlockClose b))))
    ∧ (∀ rest r : List Char, blockSpan rest = some r →
      ∃ t, t ∈ blockNames ∧ ∃ w1 nm w2,
        (∀ c ∈ w1, isPySpace c = true) ∧ (∀ c ∈ w2, isPySpace c = true) ∧
        ciStartsWith t nm = true ∧ nm.length = t.length ∧
        rest = '/' :: (w1 ++ (nm ++ (w2 ++ ('>' :: r)))))
    ∧ (∀ a b : List Char, ¬ '<' ∈ a →
      replacePTag (a ++ ('<' :: 'p' :: '>' :: b)) = a ++ ('\n' :: replacePTag b))
    ∧ (∀ a b : List Char, ¬ '<' ∈ a →
      replacePTag (a ++ ('<' :: '/' :: 'p' :: '>' :: b)) = a ++ ('\n' :: replacePTag b))
    ∧ (∀ t, t ∈ blockNames → ¬ t = ['p'] → ∀ a b : List Char, ¬ '<' ∈ a →
      replacePTag (a ++ ('<' :: '/' :: (t ++ ('>' :: b)))) =
          a ++ ('<' :: '/' :: (t ++ ('>' :: replacePTag b)))
        ∧ replacePTag (a ++ ('<' :: (t ++ ('>' :: b)))) =
          a ++ ('<' :: (t ++ ('>' :: replacePTag b))))
    ∧ (∀ rest r : List Char, pTagSpan rest = some r →
      ∃ w1 sl w2 nm w3,
        (∀ c ∈ w1, isPySpace c = true) ∧ (sl = [] ∨ sl = ['/']) ∧
        (∀ c ∈ w2, isPySpace c = true) ∧ lowerEq 'p' nm = true ∧
        (∀ c ∈ w3, isPySpace c = true) ∧
        rest = w1 ++ (sl ++ (w2 ++ (nm :: (w3 ++ ('>' :: r))))))
    ∧ (∀ t, t ∈ blockNames → ∀ b : List Char,
      stripTags ('<' :: '/' :: (t ++ ('>' :: b))) = stripTags b
        ∧ stripTags ('<' :: (t ++ ('>' :: b))) = stripTags b) := by
  refine ⟨?_, ?_, ?_, ?_, ?_, ?_, ?_, ?_⟩
  · intro t ht a b ha
    rw [replaceBlockClose_append_no_lt _ ha, blockCloseStep ht b]
  · intro t ht a b ha
    rw [replaceBlockClose_append_no_lt _ ha, blockOpenStep ht b]
  · intro rest r h
    exact blockSpan_some_shape h
  · intro a b ha
    rw [replacePTag_append_no_lt _ ha, pOpenStep b]
  · intro a b ha
    rw [replacePTag_append_no_lt _ ha, pCloseStep b]
  · intro t ht hne a b ha
    exact ⟨by rw [replacePTag_append_no_lt _ ha, (pTagNonPStep ht hne b).1],
      by rw [replacePTag_append_no_lt _ ha, (pTagNonPStep ht hne b).2]⟩
  · intro rest r h
    exact pTagSpan_some_shape h
  · intro t ht b
    exact stripTagsBlockStep ht b

/-- Closed instance of the C6 theorem: it is applied at a closing and an
opening h2/h6 tag on the structured path, at a closing h1 tag and an
opening p tag on the flat-corpus path, each in a nonempty context. -/
theorem block_tag_steps_exactly_witness :
    (['h', '2'] ∈ blockNames ∧ ¬ '<' ∈ "x".data ∧ ¬ (['h', '1'] : List Char) = ['p'])
    ∧ replaceBlockClose ("x".data ++ ('<' :: '/' :: (['h', '2'] ++ ('>' :: "y".data)))) =
        "x".data ++ ('\n' :: replaceBlockClose "y".data)
    ∧ replaceBlockClose ("x".data ++ ('<' :: (['h', '6'] ++ ('>' :: "y".data)))) =
        "x".data ++ ('<' :: (['h', '6'] ++ ('>' :: replaceBlockClose "y".data)))
    ∧ replacePTag ("x".data ++ ('<' :: '/' :: (['h', '1'] ++ ('>' :: "y".data)))) =
        "x".data ++ ('<' :: '/' :: (['h', '1'] ++ ('>' :: replacePTag "y".data)))
    ∧ replacePTag ("x".data ++ ('<' :: 'p' :: '>' :: "y".data)) =
        "x".data ++ ('\n' :: replacePTag "y".data) :=
  ⟨⟨by decide, by decide, by decide⟩,
   block_tag_steps_exactly.1 ['h', '2'] (by decide) "x".data "y".data (by decide),
   block_tag_steps_exactly.2.1 ['h', '6'] (by decide) "x".data "y".data (by decide),
   (block_tag_steps_exactly.2.2.2.2.2.1 ['h', '1'] (by decide) (by decide)
     "x".data "y".data (by decide)).1,
   block_tag_steps_exactly.2.2.2.1 "x".data "y".data (by decide)⟩
